import Mathlib

/-! The expression VM: runtime value model and dispatch loop

A shallow embedding of `vm/runtime.go` and `vm/vm.go`.

* A Go panic is the `.error` branch of `Except Fault`.
* `int` is the 64-bit machine integer; integer payloads are mathematical
  integers and every conversion or arithmetic step that can overflow wraps
  explicitly (`wrapSigned`, `wrapUnsigned`).
* The operand stack and the scope stack are lists whose top is the LAST
  element, as the Go slices they embed (`append` pushes at the end).
* Host facilities that live outside the two source files (the generic
  operator functions, the regular-expression engine, `math.Pow`, host
  callables, the error formatter, the opcode numbering) are parameters.
* Only the non-debug frame (`NewVM(false)`) is embedded; the debug channels
  have no counterpart here.
-/

namespace Vm

/-! ## Machine numbers -/

/-- The payload of a panic. The texts are indicative: formatting verbs are not expanded. -/
abbrev Fault := String

/-- Two's-complement wrap of a mathematical integer into a signed `w`-bit integer. -/
def wrapSigned (w : Nat) (x : Int) : Int :=
  (x + 2 ^ (w - 1)) % 2 ^ w - 2 ^ (w - 1)

/-- Wrap of a mathematical integer into an unsigned `w`-bit integer. -/
def wrapUnsigned (w : Nat) (x : Int) : Int :=
  x % 2 ^ w

/-- Width of the Go types `int` and `uint` (a 64-bit platform). -/
def intBits : Nat := 64

/-- Conversion to `int`, and arithmetic in `int`. -/
def wrapInt (x : Int) : Int := wrapSigned intBits x

/-- Smallest `int`. -/
def minInt : Int := -(2 ^ 63)

/-- Largest `int`. -/
def maxInt : Int := 2 ^ 63 - 1

/-- A floating-point value of either width: the finite value `m * 2 ^ e`
(every finite float32 / float64 is such a dyadic number), an infinity, or NaN.
The sign of zero is not represented. -/
inductive Flt where
  | fin (m : Int) (e : Int)
  | inf (neg : Bool)
  | nan
  deriving DecidableEq, Repr

/-- The whole part of a finite float (truncation toward zero). -/
def Flt.trunc : Flt → Option Int
  | .fin m e => some (if 0 ≤ e then m * 2 ^ e.toNat else m.tdiv (2 ^ (-e).toNat))
  | .inf _ => none
  | .nan => none

/-- Go `int(x)` / `int64(x)` for a float `x`: truncation toward zero. When the
whole part does not fit (or `x` is not finite) Go leaves the result to the
implementation; the amd64 result, the smallest integer, is used. -/
def floatToInt (x : Flt) : Int :=
  match x.trunc with
  | some t => if minInt ≤ t ∧ t ≤ maxInt then t else minInt
  | none => minInt

/-- Go `float64(n)` for an integer `n` of at most 64 bits: exact up to 53
significant bits, round-to-nearest-even beyond. -/
def intToFloat (n : Int) : Flt :=
  let a := n.natAbs
  let bits := if a = 0 then 0 else Nat.log2 a + 1
  if bits ≤ 53 then .fin n 0
  else
    let sh := bits - 53
    let q := a / 2 ^ sh
    let r := a % 2 ^ sh
    let half := 2 ^ (sh - 1)
    let q1 := if half < r ∨ (r = half ∧ q % 2 = 1) then q + 1 else q
    .fin (if n < 0 then -(q1 : Int) else (q1 : Int)) (sh : Int)

/-- Unary minus on a float. -/
def Flt.neg : Flt → Flt
  | .fin m e => .fin (-m) e
  | .inf s => .inf (!s)
  | .nan => .nan

/-! ## Runtime values -/

/-- The dynamic values (`interface{}`) the interpreter manipulates.

* `map ms kv` is a string-keyed mapping of dynamic values with method set
  `ms`; with `ms = []` it is the unnamed type `map[string]interface{}`.
* `struct ms fs` is a record with exported fields `fs` and method set `ms`.
* `ptr ms v` is a non-nil pointer to `v` whose own method set is `ms`;
  `nilPtr` is a nil pointer.
* `func`, `regexp` name a host callable and a compiled pattern; reflective
  access into them is outside the model.
* `call` is a `Call` descriptor of the constant pool.

Values are finite trees: a pointer that reaches itself is not represented. -/
inductive Value where
  | nil
  | bool (b : Bool)
  | int (n : Int)
  | int8 (n : Int)
  | int16 (n : Int)
  | int32 (n : Int)
  | int64 (n : Int)
  | uint (n : Int)
  | uint8 (n : Int)
  | uint16 (n : Int)
  | uint32 (n : Int)
  | uint64 (n : Int)
  | float32 (x : Flt)
  | float64 (x : Flt)
  | string (s : String)
  | slice (xs : List Value)
  | map (methods : List (String × Nat)) (entries : List (String × Value))
  | struct (methods : List (String × Nat)) (fields : List (String × Value))
  | ptr (methods : List (String × Nat)) (target : Value)
  | nilPtr
  | func (id : Nat)
  | regexp (id : Nat)
  | call (name : String) (size : Int)

/-- Embeds `type Scope map[string]interface{}`, as an association list without duplicate keys. -/
abbrev Scope := List (String × Value)

/-- Read of a Go map: the value bound to `k`, if any. -/
def mapGet (k : String) : List (String × Value) → Option Value
  | [] => none
  | (k1, v) :: rest => if k1 = k then some v else mapGet k rest

/-- Go `m[k] = v`: bind `k` to `v`, replacing an earlier binding of `k`. -/
def mapSet (m : List (String × Value)) (k : String) (v : Value) : List (String × Value) :=
  (k, v) :: m.filter (fun p => !decide (p.1 = k))

/-- Method lookup in a method set (`reflect.Value.MethodByName`). -/
def methodGet (name : String) : List (String × Nat) → Option Nat
  | [] => none
  | (k1, f) :: rest => if k1 = name then some f else methodGet name rest

/-- The method set of the dynamic type of a value. -/
def Value.methods : Value → List (String × Nat)
  | .map ms _ => ms
  | .struct ms _ => ms
  | .ptr ms _ => ms
  | _ => []

/-! ## `runtime.go` -/

/-- Embeds `toInt`. -/
def toInt : Value → Except Fault Int
  | .float32 x => .ok (floatToInt x)
  | .float64 x => .ok (floatToInt x)
  | .int x => .ok (wrapInt x)
  | .int8 x => .ok (wrapInt x)
  | .int16 x => .ok (wrapInt x)
  | .int32 x => .ok (wrapInt x)
  | .int64 x => .ok (wrapInt x)
  | .uint x => .ok (wrapInt x)
  | .uint8 x => .ok (wrapInt x)
  | .uint16 x => .ok (wrapInt x)
  | .uint32 x => .ok (wrapInt x)
  | .uint64 x => .ok (wrapInt x)
  | _ => .error "invalid operation: int(%T)"

/-- Embeds `toInt64`. -/
def toInt64 : Value → Except Fault Int
  | .float32 x => .ok (floatToInt x)
  | .float64 x => .ok (floatToInt x)
  | .int x => .ok (wrapSigned 64 x)
  | .int8 x => .ok (wrapSigned 64 x)
  | .int16 x => .ok (wrapSigned 64 x)
  | .int32 x => .ok (wrapSigned 64 x)
  | .int64 x => .ok (wrapSigned 64 x)
  | .uint x => .ok (wrapSigned 64 x)
  | .uint8 x => .ok (wrapSigned 64 x)
  | .uint16 x => .ok (wrapSigned 64 x)
  | .uint32 x => .ok (wrapSigned 64 x)
  | .uint64 x => .ok (wrapSigned 64 x)
  | _ => .error "invalid operation: int64(%T)"

/-- Embeds `toFloat64`. -/
def toFloat64 : Value → Except Fault Flt
  | .float32 x => .ok x
  | .float64 x => .ok x
  | .int x => .ok (intToFloat x)
  | .int8 x => .ok (intToFloat x)
  | .int16 x => .ok (intToFloat x)
  | .int32 x => .ok (intToFloat x)
  | .int64 x => .ok (intToFloat x)
  | .uint x => .ok (intToFloat x)
  | .uint8 x => .ok (intToFloat x)
  | .uint16 x => .ok (intToFloat x)
  | .uint32 x => .ok (intToFloat x)
  | .uint64 x => .ok (intToFloat x)
  | _ => .error "invalid operation: float64(%T)"

/-- Embeds `reflect.Value.MapIndex` on a string-keyed mapping: a key that is not
assignable to the key type makes reflection panic, an absent key gives the
invalid value (`none`). -/
def mapIndex (kv : List (String × Value)) : Value → Except Fault (Option Value)
  | .string k => .ok (mapGet k kv)
  | _ => .error "reflect.Value.MapIndex: value is not assignable to type string"

/-- Embeds `reflect.Value.FieldByName(reflect.ValueOf(i).String())`: only a string
operand can name a field. -/
def fieldByName (fs : List (String × Value)) : Value → Option Value
  | .string k => mapGet k fs
  | _ => none

/-- The exported fields of a `Call` descriptor seen as a record. -/
def callFields (name : String) (size : Int) : List (String × Value) :=
  [("Name", .string name), ("Size", .int size)]

/-- The bytes of a Go string (valid UTF-8 text). -/
def strBytes (s : String) : List Nat :=
  s.toUTF8.data.toList.map (fun b => b.toNat)

/-- Embeds `reflect.Value.Index`: the element at an `int` index, a panic outside the bounds. -/
def indexList {α : Type} (xs : List α) (i : Int) : Except Fault α :=
  if i < 0 then .error "reflect: index out of range"
  else match xs.get? i.toNat with
    | some v => .ok v
    | none => .error "reflect: index out of range"

/-- Embeds `fetch`. -/
def fetch : Value → Value → Except Fault Value
  | .slice xs, i =>
    match toInt i with
    | .ok index => indexList xs index
    | .error e => .error e
  | .string s, i =>
    match toInt i with
    | .ok index =>
      match indexList (strBytes s) index with
      | .ok b => .ok (.uint8 b)
      | .error e => .error e
    | .error e => .error e
  | .map _ kv, i =>
    match mapIndex kv i with
    | .ok (some value) => .ok value
    | .ok none => .error "%v doesn't contains %v"
    | .error e => .error e
  | .struct _ fs, i =>
    match fieldByName fs i with
    | some value => .ok value
    | none => .error "%v doesn't contains %v"
  | .call name size, i =>
    match fieldByName (callFields name size) i with
    | some value => .ok value
    | none => .error "%v doesn't contains %v"
  | .ptr _ value, i => fetch value i
  | _, _ => .error "%v doesn't contains %v"

/-- Embeds `length`. -/
def length : Value → Except Fault Int
  | .slice xs => .ok (xs.length : Int)
  | .string s => .ok (s.utf8ByteSize : Int)
  | _ => .error "invalid argument for len (type %T)"

/-- The allocator limit `maxAlloc` of the Go runtime, in bytes: `1 << 48` on a
64-bit platform with 48-bit heap addresses. -/
def maxAlloc : Int := 2 ^ 48

/-- The payload that stands for the fatal error of the Go runtime on exhausted
memory. It is no panic: the process ends and no `recover` sees it. -/
def outOfMemory : Fault := "fatal error: runtime: out of memory"

/-- Go `make([]T, len)` for elements of `elemSize` bytes, as `runtime.makeslice`
decides it: the panic `len out of range` when `len` is negative or when
`elemSize * len` bytes overflow or exceed `maxAlloc`. A request that passes
this check but exceeds `memLimit`, the bytes the allocator can still obtain,
ends with the fatal error `outOfMemory`. Otherwise the slice has `len` elements. -/
def makeslice (memLimit elemSize len : Int) : Except Fault Nat :=
  if len < 0 ∨ maxAlloc < elemSize * len then
    .error "runtime error: makeslice: len out of range"
  else if memLimit < elemSize * len then .error outOfMemory
  else .ok len.toNat

/-- Embeds `makeRange`; an `int` takes 8 bytes. The bytes that the allocator
can obtain are the parameter `memLimit`. -/
def makeRange (memLimit : Int) (a b : Value) : Except Fault (List Int) :=
  match toInt a with
  | .error e => .error e
  | .ok min =>
    match toInt b with
    | .error e => .error e
    | .ok max =>
      let size := wrapInt (max - min + 1)
      match makeslice memLimit 8 size with
      | .error e => .error e
      | .ok n => .ok (List.map (fun i : Nat => wrapInt (min + (i : Int))) (List.range n))

/-- Embeds `reflect.Value.Slice` on a list: the capacity is taken to be the length. -/
def sliceList {α : Type} (xs : List α) (i j : Int) : Except Fault (List α) :=
  if 0 ≤ i ∧ i ≤ j ∧ j ≤ (xs.length : Int) then .ok ((xs.drop i.toNat).take (j - i).toNat)
  else .error "reflect: slice index out of bounds"

/-- Embeds `slice`. A string is sliced at byte offsets; the result is modelled when
the offsets fall on character boundaries. -/
def slice : Value → Value → Value → Except Fault Value
  | .slice xs, from_, to_ =>
    match toInt from_ with
    | .error e => .error e
    | .ok i =>
      match toInt to_ with
      | .error e => .error e
      | .ok j =>
        match sliceList xs i j with
        | .ok ys => .ok (.slice ys)
        | .error e => .error e
  | .string s, from_, to_ =>
    match toInt from_ with
    | .error e => .error e
    | .ok i =>
      match toInt to_ with
      | .error e => .error e
      | .ok j =>
        if 0 ≤ i ∧ i ≤ j ∧ j ≤ (s.utf8ByteSize : Int) then
          .ok (.string (s.extract ⟨i.toNat⟩ ⟨j.toNat⟩))
        else .error "reflect: string slice index out of bounds"
  | .ptr _ value, from_, to_ => slice value from_ to_
  | _, _, _ => .error "cannot slice %v"

/-- Embeds `fetchFn`. The callable is returned as a value; a method of the
receiver is the host callable its method set names. -/
def fetchFn (frm : Value) (name : String) : Except Fault Value :=
  match methodGet name frm.methods with
  | some method => .ok (.func method)
  | none =>
    let d := match frm with
      | .ptr _ target => target
      | v => v
    match d with
    | .map _ kv =>
      match mapGet name kv with
      | some value => .ok value
      | none => .error "cannot get %v from %T"
    | .struct _ fs =>
      match mapGet name fs with
      | some value => .ok value
      | none => .error "cannot get %v from %T"
    | .call cname size =>
      match mapGet name (callFields cname size) with
      | some value => .ok value
      | none => .error "cannot get %v from %T"
    | _ => .error "cannot get %v from %T"

/-- The scan of `in` over a sequence: `equal(value, needle).(bool)` on each
element in turn, with the generic `equal` as a parameter. -/
def inSlice (equal : Value → Value → Except Fault Value) (needle : Value) :
    List Value → Except Fault Bool
  | [] => .ok false
  | value :: rest =>
    match equal value needle with
    | .error e => .error e
    | .ok (.bool true) => .ok true
    | .ok (.bool false) => inSlice equal needle rest
    | .ok _ => .error "interface conversion: interface is not bool"

/-- Embeds `in` (membership), named `in_` because `in` is reserved. -/
def in_ (equal : Value → Value → Except Fault Value) (needle : Value) :
    Value → Except Fault Bool
  | .nil => .ok false
  | .slice xs => inSlice equal needle xs
  | .map _ kv =>
    match needle with
    | .nil => .error "cannot use %T as index to %T"
    | n =>
      match mapIndex kv n with
      | .ok value => .ok value.isSome
      | .error e => .error e
  | .struct _ fs =>
    match needle with
    | .string k => .ok (mapGet k fs).isSome
    | _ => .error "cannot use %T as field name of %T"
  | .call name size =>
    match needle with
    | .string k => .ok (mapGet k (callFields name size)).isSome
    | _ => .error "cannot use %T as field name of %T"
  | .ptr _ value => in_ equal needle value
  | .nilPtr => .ok false
  | _ => .error "operator in not defined on %T"

/-- Embeds `negate`: the result has the type of the operand, integers wrap at their width. -/
def negate : Value → Except Fault Value
  | .float32 v => .ok (.float32 v.neg)
  | .float64 v => .ok (.float64 v.neg)
  | .int v => .ok (.int (wrapSigned intBits (-v)))
  | .int8 v => .ok (.int8 (wrapSigned 8 (-v)))
  | .int16 v => .ok (.int16 (wrapSigned 16 (-v)))
  | .int32 v => .ok (.int32 (wrapSigned 32 (-v)))
  | .int64 v => .ok (.int64 (wrapSigned 64 (-v)))
  | .uint v => .ok (.uint (wrapUnsigned intBits (-v)))
  | .uint8 v => .ok (.uint8 (wrapUnsigned 8 (-v)))
  | .uint16 v => .ok (.uint16 (wrapUnsigned 16 (-v)))
  | .uint32 v => .ok (.uint32 (wrapUnsigned 32 (-v)))
  | .uint64 v => .ok (.uint64 (wrapUnsigned 64 (-v)))
  | _ => .error "invalid operation: - %T"

/-- Embeds `exponent`, with `math.Pow` as a parameter. -/
def exponent (pow : Flt → Flt → Flt) (a b : Value) : Except Fault Flt :=
  match toFloat64 a with
  | .error e => .error e
  | .ok x =>
    match toFloat64 b with
    | .error e => .error e
    | .ok y => .ok (pow x y)

/-! ## The host -/

/-- A source position (`file.Location`). -/
structure Location where
  line : Nat
  column : Nat
  deriving DecidableEq, Repr

/-- What the dispatch loop uses and the two source files do not define: the
generic operator functions (binary, dynamically typed, panicking on a type
mismatch), the regular-expression engine, `math.Pow`, and the invocation of a
host callable (`reflect.Value.Call`, which returns the list of results), the
bytes that the allocator can obtain for `make`, and the rendering of a
positioned error (`file.Error.Format` under `fmt.Errorf`) from the location,
the panic payload and the pointer to the source text (`none` is the nil
pointer); that rendering can itself panic, as it does on a nil source. -/
structure Host where
  equal : Value → Value → Except Fault Value
  less : Value → Value → Except Fault Value
  more : Value → Value → Except Fault Value
  lessOrEqual : Value → Value → Except Fault Value
  moreOrEqual : Value → Value → Except Fault Value
  add : Value → Value → Except Fault Value
  subtract : Value → Value → Except Fault Value
  multiply : Value → Value → Except Fault Value
  divide : Value → Value → Except Fault Value
  modulo : Value → Value → Except Fault Value
  matchString : String → String → Except Fault Bool
  regexpMatch : Nat → String → Bool
  pow : Flt → Flt → Flt
  callFn : Nat → List Value → Except Fault (List Value)
  memLimit : Int
  format : Location → Fault → Option String → Except Fault String

/-- Embeds `reflect.Value.Call`: only a function value can be called. -/
def Host.call (H : Host) (fn : Value) (args : List Value) : Except Fault (List Value) :=
  match fn with
  | .func id => H.callFn id args
  | _ => .error "reflect: call of non-function"

/-- A host for examples: every callable returns its first argument, the
generic operators are not provided, `make` can obtain 4 GiB, and the error
rendering returns the payload, panicking on a nil source. -/
def Host.sample : Host where
  equal := fun _ _ => .error "not provided"
  less := fun _ _ => .error "not provided"
  more := fun _ _ => .error "not provided"
  lessOrEqual := fun _ _ => .error "not provided"
  moreOrEqual := fun _ _ => .error "not provided"
  add := fun _ _ => .error "not provided"
  subtract := fun _ _ => .error "not provided"
  multiply := fun _ _ => .error "not provided"
  divide := fun _ _ => .error "not provided"
  modulo := fun _ _ => .error "not provided"
  matchString := fun _ _ => .error "not provided"
  regexpMatch := fun _ _ => false
  pow := fun x _ => x
  callFn := fun _ args => .ok (args.take 1)
  memLimit := 2 ^ 32
  format := fun _ r source =>
    match source with
    | some _ => .ok r
    | none => .error "runtime error: invalid memory address or nil pointer dereference"

/-! ## Opcodes -/

/-- The opcode names the dispatch switch of `VM.Run` uses, in its order. -/
inductive Op where
  | OpPush | OpPop | OpRot | OpFetch | OpFetchMap | OpTrue | OpFalse | OpNil
  | OpNegate | OpNot | OpEqual | OpEqualInt | OpEqualString
  | OpJump | OpJumpIfTrue | OpJumpIfFalse | OpJumpBackward
  | OpIn | OpLess | OpMore | OpLessOrEqual | OpMoreOrEqual
  | OpAdd | OpSubtract | OpMultiply | OpDivide | OpModulo | OpExponent | OpRange
  | OpMatches | OpMatchesConst | OpContains | OpStartsWith | OpEndsWith
  | OpIndex | OpSlice | OpProperty | OpCall | OpMethod | OpArray | OpMap
  | OpLen | OpCast | OpStore | OpLoad | OpInc | OpBegin | OpEnd
  deriving DecidableEq, Repr

/-- Every opcode name, in the order of the switch. -/
def Op.all : List Op :=
  [.OpPush, .OpPop, .OpRot, .OpFetch, .OpFetchMap, .OpTrue, .OpFalse, .OpNil,
   .OpNegate, .OpNot, .OpEqual, .OpEqualInt, .OpEqualString,
   .OpJump, .OpJumpIfTrue, .OpJumpIfFalse, .OpJumpBackward,
   .OpIn, .OpLess, .OpMore, .OpLessOrEqual, .OpMoreOrEqual,
   .OpAdd, .OpSubtract, .OpMultiply, .OpDivide, .OpModulo, .OpExponent, .OpRange,
   .OpMatches, .OpMatchesConst, .OpContains, .OpStartsWith, .OpEndsWith,
   .OpIndex, .OpSlice, .OpProperty, .OpCall, .OpMethod, .OpArray, .OpMap,
   .OpLen, .OpCast, .OpStore, .OpLoad, .OpInc, .OpBegin, .OpEnd]

/-- The byte values of the opcode constants. Their declaration is not part of
the two source files, so the numbering is a parameter; the constants of a Go
switch are pairwise distinct. -/
structure Opcodes where
  code : Op → Nat
  inj : ∀ a b, code a = code b → a = b

/-- The case of the switch that an opcode byte selects, if any. -/
def Opcodes.decode (T : Opcodes) (b : Nat) : Option Op :=
  Op.all.find? (fun o => decide (T.code o = b))

/-- A numbering: each constant is its position in the switch. -/
def Opcodes.positional : Opcodes where
  code := fun o => Op.all.indexOf o
  inj := by
    intro a b h
    have ha : a ∈ Op.all := by cases a <;> simp [Op.all]
    have hb : b ∈ Op.all := by cases b <;> simp [Op.all]
    exact (List.indexOf_inj ha hb).mp h

/-! ## `vm.go`: the frame -/

/-- The compiled program. `Source` is a pointer to the source text: `none` is
the nil pointer. -/
structure Program where
  Source : Option String
  Locations : List Location
  Constants : List Value
  Bytecode : List Nat

/-- The frame `VM` without its debug fields. `ip` and `pp` are Go `int`s: a
backward jump can make `ip` negative. -/
structure VM where
  stack : List Value
  constants : List Value
  bytecode : List Nat
  ip : Int
  pp : Int
  scopes : List Scope

/-- Embeds `NewVM(false)`. -/
def NewVM : VM :=
  { stack := [], constants := [], bytecode := [], ip := 0, pp := 0, scopes := [] }

/-- Embeds `vm.push`. -/
def VM.push (vm : VM) (value : Value) : VM :=
  { vm with stack := vm.stack ++ [value] }

/-- Embeds `vm.current`. -/
def VM.current (vm : VM) : Except Fault Value :=
  match vm.stack.getLast? with
  | some value => .ok value
  | none => .error "runtime error: index out of range [-1]"

/-- Embeds `vm.pop`. -/
def VM.pop (vm : VM) : Except Fault (Value × VM) :=
  match vm.stack.getLast? with
  | some value => .ok (value, { vm with stack := vm.stack.dropLast })
  | none => .error "runtime error: index out of range [-1]"

/-- The Go expression `uint16(b0) | uint16(b1)<<8` on two bytes. -/
def operand (b0 b1 : Nat) : Nat :=
  ((b0 % 256) ||| (((b1 % 256) <<< 8) % 65536)) % 65536

/-- Embeds `vm.arg`: the two operand bytes at `ip`, little-endian; `ip` advances by 2. -/
def VM.arg (vm : VM) : Except Fault (Nat × VM) :=
  match indexList vm.bytecode vm.ip with
  | .error _ => .error "runtime error: index out of range"
  | .ok b0 =>
    match indexList vm.bytecode (vm.ip + 1) with
    | .error _ => .error "runtime error: index out of range"
    | .ok b1 => .ok (operand b0 b1, { vm with ip := vm.ip + 2 })

/-- The expression `vm.constants[vm.arg()]`. -/
def VM.constArg (vm : VM) : Except Fault (Value × VM) :=
  match vm.arg with
  | .error e => .error e
  | .ok (i, vm1) =>
    match vm1.constants.get? i with
    | some c => .ok (c, vm1)
    | none => .error "runtime error: index out of range"

/-- Embeds `vm.Scope`: the innermost scope, `none` for the nil map. -/
def VM.Scope (vm : VM) : Option Scope :=
  vm.scopes.getLast?

/-- The loop `for i := size - 1; i >= 0; i-- { array[i] = vm.pop() }` of the
call, method and array opcodes, entered with `i + 1` iterations left. -/
def VM.popInto : Nat → List Value → VM → Except Fault (List Value × VM)
  | 0, array, vm => .ok (array, vm)
  | i + 1, array, vm =>
    match vm.pop with
    | .error e => .error e
    | .ok (value, vm1) => VM.popInto i (array.set i value) vm1

/-- Go `make([]T, size)` followed by the fill loop: `make` panics on a negative
size. The allocator bound of `make` is not repeated here: the fill loop pops
`size` values, so a size that is not already held by the stack panics there. -/
def VM.popArray (vm : VM) (size : Int) : Except Fault (List Value × VM) :=
  if size < 0 then .error "runtime error: makeslice: len out of range"
  else VM.popInto size.toNat (List.replicate size.toNat Value.nil) vm

/-- The loop of the map opcode, entered with `i + 1` iterations left:
`value := vm.pop(); key := vm.pop(); m[key.(string)] = value`. -/
def VM.popPairs : Nat → List (String × Value) → VM → Except Fault (List (String × Value) × VM)
  | 0, m, vm => .ok (m, vm)
  | i + 1, m, vm =>
    match vm.pop with
    | .error e => .error e
    | .ok (value, vm1) =>
      match vm1.pop with
      | .error e => .error e
      | .ok (key, vm2) =>
        match key with
        | .string k => VM.popPairs i (mapSet m k value) vm2
        | _ => .error "interface conversion: interface is not string"

/-- The shape `b := vm.pop(); a := vm.pop(); vm.push(f(a, b))` of the binary opcodes. -/
def VM.binary (vm : VM) (f : Value → Value → Except Fault Value) : Except Fault VM :=
  match vm.pop with
  | .error e => .error e
  | .ok (b, vm1) =>
    match vm1.pop with
    | .error e => .error e
    | .ok (a, vm2) =>
      match f a b with
      | .error e => .error e
      | .ok r => .ok (vm2.push r)

/-- Embeds `strings.Contains`. -/
def strContains (s substr : String) : Bool :=
  s.toList.tails.any (fun t => substr.toList.isPrefixOf t)

/-- Embeds `strings.HasPrefix`. -/
def strHasPrefix (s pre : String) : Bool :=
  pre.toList.isPrefixOf s.toList

/-- Embeds `strings.HasSuffix`. -/
def strHasSuffix (s suf : String) : Bool :=
  suf.toList.isSuffixOf s.toList

/-- The type assertion `v.(int)`. -/
def asInt : Value → Except Fault Int
  | .int n => .ok n
  | _ => .error "interface conversion: interface is not int"

/-- The type assertion `v.(string)`. -/
def asString : Value → Except Fault String
  | .string s => .ok s
  | _ => .error "interface conversion: interface is not string"

/-- The type assertion `v.(bool)`. -/
def asBool : Value → Except Fault Bool
  | .bool b => .ok b
  | _ => .error "interface conversion: interface is not bool"

/-- The type assertion `v.(Call)`. -/
def asCall : Value → Except Fault (String × Int)
  | .call name size => .ok (name, size)
  | _ => .error "interface conversion: interface is not vm.Call"

/-- The type assertion `v.(*regexp.Regexp)`. -/
def asRegexp : Value → Except Fault Nat
  | .regexp r => .ok r
  | _ => .error "interface conversion: interface is not *regexp.Regexp"

/-- The type assertion `env.(map[string]interface{})`. -/
def asStringMap : Value → Except Fault (List (String × Value))
  | .map [] kv => .ok kv
  | _ => .error "interface conversion: interface is not map[string]interface"

/-- The first result of a call, `out[0]`. -/
def firstResult : List Value → Except Fault Value
  | o :: _ => .ok o
  | [] => .error "runtime error: index out of range [0]"

/-- The value `new(struct{})` that the nil opcode pushes: a non-nil pointer to an empty record. -/
def emptyStructPtr : Value := .ptr [] (.struct [] [])

/-- The body of the dispatch switch of `VM.Run` for one decoded opcode; the
opcode byte has been consumed (`ip` points at the operand bytes, if any). -/
def VM.exec (H : Host) (env : Value) (vm : VM) : Op → Except Fault VM
  | .OpPush => do
    let (c, vm1) ← vm.constArg
    pure (vm1.push c)
  | .OpPop => do
    let (_, vm1) ← vm.pop
    pure vm1
  | .OpRot => do
    let (b, vm1) ← vm.pop
    let (a, vm2) ← vm1.pop
    pure ((vm2.push b).push a)
  | .OpFetch => do
    let (c, vm1) ← vm.constArg
    let r ← fetch env c
    pure (vm1.push r)
  | .OpFetchMap => do
    let m ← asStringMap env
    let (c, vm1) ← vm.constArg
    let k ← asString c
    pure (vm1.push ((mapGet k m).getD .nil))
  | .OpTrue => pure (vm.push (.bool true))
  | .OpFalse => pure (vm.push (.bool false))
  | .OpNil => pure (vm.push emptyStructPtr)
  | .OpNegate => do
    let (a, vm1) ← vm.pop
    let v ← negate a
    pure (vm1.push v)
  | .OpNot => do
    let (a, vm1) ← vm.pop
    let v ← asBool a
    pure (vm1.push (.bool (!v)))
  | .OpEqual => vm.binary H.equal
  | .OpEqualInt => do
    let (b, vm1) ← vm.pop
    let (a, vm2) ← vm1.pop
    let x ← asInt a
    let y ← asInt b
    pure (vm2.push (.bool (decide (x = y))))
  | .OpEqualString => do
    let (b, vm1) ← vm.pop
    let (a, vm2) ← vm1.pop
    let x ← asString a
    let y ← asString b
    pure (vm2.push (.bool (decide (x = y))))
  | .OpJump => do
    let (offset, vm1) ← vm.arg
    pure { vm1 with ip := vm1.ip + (offset : Int) }
  | .OpJumpIfTrue => do
    let (offset, vm1) ← vm.arg
    let c ← vm1.current
    let b ← asBool c
    pure (if b then { vm1 with ip := vm1.ip + (offset : Int) } else vm1)
  | .OpJumpIfFalse => do
    let (offset, vm1) ← vm.arg
    let c ← vm1.current
    let b ← asBool c
    pure (if !b then { vm1 with ip := vm1.ip + (offset : Int) } else vm1)
  | .OpJumpBackward => do
    let (offset, vm1) ← vm.arg
    pure { vm1 with ip := vm1.ip - (offset : Int) }
  | .OpIn => vm.binary (fun a b => (in_ H.equal a b).map Value.bool)
  | .OpLess => vm.binary H.less
  | .OpMore => vm.binary H.more
  | .OpLessOrEqual => vm.binary H.lessOrEqual
  | .OpMoreOrEqual => vm.binary H.moreOrEqual
  | .OpAdd => vm.binary H.add
  | .OpSubtract => vm.binary H.subtract
  | .OpMultiply => vm.binary H.multiply
  | .OpDivide => vm.binary H.divide
  | .OpModulo => vm.binary H.modulo
  | .OpExponent => vm.binary (fun a b => (exponent H.pow a b).map Value.float64)
  | .OpRange => vm.binary (fun a b =>
    (makeRange H.memLimit a b).map (fun r => Value.slice (r.map Value.int)))
  | .OpMatches => vm.binary (fun a b => do
    let pattern ← asString b
    let s ← asString a
    let r ← H.matchString pattern s
    pure (Value.bool r))
  | .OpMatchesConst => do
    let (a, vm1) ← vm.pop
    let (c, vm2) ← vm1.constArg
    let r ← asRegexp c
    let s ← asString a
    pure (vm2.push (.bool (H.regexpMatch r s)))
  | .OpContains => vm.binary (fun a b => do
    let x ← asString a
    let y ← asString b
    pure (Value.bool (strContains x y)))
  | .OpStartsWith => vm.binary (fun a b => do
    let x ← asString a
    let y ← asString b
    pure (Value.bool (strHasPrefix x y)))
  | .OpEndsWith => vm.binary (fun a b => do
    let x ← asString a
    let y ← asString b
    pure (Value.bool (strHasSuffix x y)))
  | .OpIndex => vm.binary fetch
  | .OpSlice => do
    let (from_, vm1) ← vm.pop
    let (to_, vm2) ← vm1.pop
    let (node, vm3) ← vm2.pop
    let r ← slice node from_ to_
    pure (vm3.push r)
  | .OpProperty => do
    let (a, vm1) ← vm.pop
    let (b, vm2) ← vm1.constArg
    let r ← fetch a b
    pure (vm2.push r)
  | .OpCall => do
    let (c, vm1) ← vm.constArg
    let (name, size) ← asCall c
    let (args, vm2) ← vm1.popArray size
    let fn ← fetchFn env name
    let out ← H.call fn args
    let r ← firstResult out
    pure (vm2.push r)
  | .OpMethod => do
    let (c, vm1) ← vm.constArg
    let (name, size) ← asCall c
    let (args, vm2) ← vm1.popArray size
    let (obj, vm3) ← vm2.pop
    let fn ← fetchFn obj name
    let out ← H.call fn args
    let r ← firstResult out
    pure (vm3.push r)
  | .OpArray => do
    let (n, vm1) ← vm.pop
    let size ← asInt n
    let (array, vm2) ← vm1.popArray size
    pure (vm2.push (.slice array))
  | .OpMap => do
    let (n, vm1) ← vm.pop
    let size ← asInt n
    let (m, vm2) ← VM.popPairs size.toNat [] vm1
    pure (vm2.push (.map [] m))
  | .OpLen => do
    let c ← vm.current
    let n ← length c
    pure (vm.push (.int n))
  | .OpCast => do
    let (t, vm1) ← vm.arg
    if t = 0 then do
      let (a, vm2) ← vm1.pop
      let r ← toInt64 a
      pure (vm2.push (.int64 r))
    else if t = 1 then do
      let (a, vm2) ← vm1.pop
      let r ← toFloat64 a
      pure (vm2.push (.float64 r))
    else pure vm1
  | .OpStore => do
    let scope := vm.Scope
    let (c, vm1) ← vm.constArg
    let key ← asString c
    let (value, vm2) ← vm1.pop
    match scope with
    | none => throw "assignment to entry in nil map"
    | some sc => pure { vm2 with scopes := vm2.scopes.dropLast ++ [mapSet sc key value] }
  | .OpLoad => do
    let scope := vm.Scope
    let (c, vm1) ← vm.constArg
    let key ← asString c
    match scope with
    | none => pure (vm1.push .nil)
    | some sc => pure (vm1.push ((mapGet key sc).getD .nil))
  | .OpInc => do
    let scope := vm.Scope
    let (c, vm1) ← vm.constArg
    let key ← asString c
    match scope with
    | none => throw "interface conversion: interface is nil, not int"
    | some sc =>
      let i ← asInt ((mapGet key sc).getD .nil)
      pure { vm1 with scopes := vm1.scopes.dropLast ++ [mapSet sc key (.int (wrapInt (i + 1)))] }
  | .OpBegin => pure { vm with scopes := vm.scopes ++ [[]] }
  | .OpEnd =>
    if vm.scopes.length = 0 then throw "runtime error: slice bounds out of range [:-1]"
    else pure { vm with scopes := vm.scopes.dropLast }

/-- One turn of the loop of `VM.Run`: `vm.pp = vm.ip; vm.ip++; op := vm.bytecode[vm.pp]`
and the switch on `op`. -/
def VM.cycle (T : Opcodes) (H : Host) (env : Value) (vm : VM) : Except Fault VM :=
  let vm1 : VM := { vm with pp := vm.ip, ip := vm.ip + 1 }
  match indexList vm1.bytecode vm1.pp with
  | .error _ => .error "runtime error: index out of range"
  | .ok op =>
    match T.decode op with
    | some o => vm1.exec H env o
    | none => .error "unknown bytecode %#x"

/-- The loop `for vm.ip < len(vm.bytecode)`, bounded by `fuel` turns
(`none`: the fuel ran out). A panic is reported with the program pointer it
leaves in the frame, which is the offset of the opcode being executed. -/
def VM.loop (T : Opcodes) (H : Host) (env : Value) : Nat → VM → Option (Except (Int × Fault) VM)
  | 0, _ => none
  | fuel + 1, vm =>
    if vm.ip < (vm.bytecode.length : Int) then
      match vm.cycle T H env with
      | .ok vm1 => VM.loop T H env fuel vm1
      | .error r => some (.error (vm.ip, r))
    else some (.ok vm)

/-- The method `(*VM).Run`: the loop, then the top of the stack, or nil when the stack is empty. -/
def VM.Run (T : Opcodes) (H : Host) (fuel : Nat) (vm : VM) (program : Program) (env : Value) :
    Option (Except (Int × Fault) Value) :=
  let vm1 : VM := { vm with bytecode := program.Bytecode, constants := program.Constants }
  match VM.loop T H env fuel vm1 with
  | none => none
  | some (.error r) => some (.error r)
  | some (.ok vm2) =>
    match vm2.pop with
    | .ok (value, _) => some (.ok value)
    | .error _ => some (.ok .nil)

/-- What a caller of the function `Run` observes: the pair `(out, err)`, a
panic that escapes the deferred recovery, or the end of the process on a fatal
error of the runtime. -/
inductive Result where
  | returned (out : Value) (err : Option String)
  | panicked (r : Fault)
  | fatal (r : Fault)

/-- The function `Run`: a fresh frame, the method `Run`, and the deferred
recovery. The program is a pointer (`none` is nil): on a nil program the
method panics on `program.Bytecode` and the recovery panics in turn on
`program.Locations`. A fatal error is not a panic and is not recovered. After
`recover()` the deferred function indexes `program.Locations[vm.pp]` and calls
`h.Format(program.Source)`; a panic of either step is not recovered and
reaches the caller. -/
def Run (T : Opcodes) (H : Host) (fuel : Nat) (program : Option Program) (env : Value) :
    Option Result :=
  match program with
  | none => some (.panicked "runtime error: invalid memory address or nil pointer dereference")
  | some program =>
    match VM.Run T H fuel NewVM program env with
    | none => none
    | some (.ok out) => some (.returned out none)
    | some (.error (pp, r)) =>
      if r = outOfMemory then some (.fatal r)
      else
        match indexList program.Locations pp with
        | .error _ => some (.panicked "runtime error: index out of range")
        | .ok loc =>
          match H.format loc r program.Source with
          | .ok message => some (.returned .nil (some message))
          | .error e => some (.panicked e)

/-! ## Stack layouts used in the statements -/

/-- The stack segment `k1, v1, ..., kn, vn` that key/value pairs occupy, in push order. -/
def flatPairs : List (Value × Value) → List Value
  | [] => []
  | (k, v) :: rest => k :: v :: flatPairs rest

/-- A pair with a string key, as a pair of values. -/
def strPair (p : String × Value) : Value × Value := (.string p.1, p.2)

/-! ## Integer types and shapes used in the statements -/

/-- The ten integer types of the numeric switches. -/
inductive IntType where
  | int | int8 | int16 | int32 | int64 | uint | uint8 | uint16 | uint32 | uint64
  deriving DecidableEq, Repr

/-- The width of an integer type in bits. -/
def IntType.bits : IntType → Nat
  | .int => intBits
  | .int8 => 8
  | .int16 => 16
  | .int32 => 32
  | .int64 => 64
  | .uint => intBits
  | .uint8 => 8
  | .uint16 => 16
  | .uint32 => 32
  | .uint64 => 64

/-- Whether an integer type is signed. -/
def IntType.signed : IntType → Bool
  | .int | .int8 | .int16 | .int32 | .int64 => true
  | .uint | .uint8 | .uint16 | .uint32 | .uint64 => false

/-- The dynamic value of integer type `t` with payload `x`. -/
def IntType.value : IntType → Int → Value
  | .int, x => .int x
  | .int8, x => .int8 x
  | .int16, x => .int16 x
  | .int32, x => .int32 x
  | .int64, x => .int64 x
  | .uint, x => .uint x
  | .uint8, x => .uint8 x
  | .uint16, x => .uint16 x
  | .uint32, x => .uint32 x
  | .uint64, x => .uint64 x

/-- The integers that the type `t` can hold. -/
def IntType.holds (t : IntType) (x : Int) : Prop :=
  if t.signed then -(2 ^ (t.bits - 1)) ≤ x ∧ x < 2 ^ (t.bits - 1)
  else 0 ≤ x ∧ x < 2 ^ t.bits

/-- Whether a value has one of the twelve numeric types of the coercion switches. -/
def Value.isNumeric : Value → Bool
  | .float32 _ | .float64 _ => true
  | .int _ | .int8 _ | .int16 _ | .int32 _ | .int64 _ => true
  | .uint _ | .uint8 _ | .uint16 _ | .uint32 _ | .uint64 _ => true
  | _ => false

/-- One level of pointer indirection removed, as `fetchFn` does before its kind switch. -/
def Value.deref : Value → Value
  | .ptr _ target => target
  | v => v

/-- The map entry (mapping) or field (record) named `name` of a value, if it has one. -/
def Value.entry (name : String) : Value → Option Value
  | .map _ kv => mapGet name kv
  | .struct _ fs => mapGet name fs
  | .call cname size => mapGet name (callFields cname size)
  | _ => none

/-! ## Runs of several cycles -/

/-- The frame after `n` turns of the loop of `VM.Run`, `none` when one of them
fails the loop test `vm.ip < len(vm.bytecode)` or panics. -/
def VM.after (T : Opcodes) (H : Host) (env : Value) : Nat → VM → Option VM
  | 0, vm => some vm
  | n + 1, vm =>
    if vm.ip < (vm.bytecode.length : Int) then
      match vm.cycle T H env with
      | .ok vm1 => VM.after T H env n vm1
      | .error _ => none
    else none

/-- The frame with which the method `Run` enters its loop. -/
def VM.start (program : Program) : VM :=
  { NewVM with bytecode := program.Bytecode, constants := program.Constants }

/-! ## Frame effect on the code and the instruction pointer -/

/-- An outcome that, when it is a frame, has the bytecode of `vm` and an
instruction pointer not below that of `vm`. -/
def VM.Keeps (vm : VM) (r : Except Fault VM) : Prop :=
  ∀ w, r = .ok w → w.bytecode = vm.bytecode ∧ vm.ip ≤ w.ip

/-- The same for an outcome that pairs a result with a frame. -/
def VM.KeepsP {α : Type} (vm : VM) (r : Except Fault (α × VM)) : Prop :=
  ∀ p : α × VM, r = .ok p → p.2.bytecode = vm.bytecode ∧ vm.ip ≤ p.2.ip

/-- An example frame: the one-instruction code of the true opcode, about to start. -/
def VM.oneTrue : VM :=
  ⟨[], [], [Opcodes.positional.code .OpTrue], 0, 0, []⟩

/-! ## Machine integers: range lemmas -/

theorem wrapInt_of_range {x : Int} (h1 : minInt ≤ x) (h2 : x ≤ maxInt) : wrapInt x = x := by
  unfold wrapInt wrapSigned intBits
  unfold minInt at h1
  unfold maxInt at h2
  norm_num at h1 h2 ⊢
  omega

theorem wrapInt_range (x : Int) : minInt ≤ wrapInt x ∧ wrapInt x ≤ maxInt := by
  unfold wrapInt wrapSigned intBits minInt maxInt
  norm_num
  omega

theorem floatToInt_range (x : Flt) : minInt ≤ floatToInt x ∧ floatToInt x ≤ maxInt := by
  unfold floatToInt
  split
  · split
    · assumption
    · exact ⟨le_refl _, by unfold minInt maxInt; norm_num⟩
  · exact ⟨le_refl _, by unfold minInt maxInt; norm_num⟩

/-- Whatever `toInt` returns is an `int`. -/
theorem toInt_range {a : Value} {x : Int} (h : toInt a = .ok x) : minInt ≤ x ∧ x ≤ maxInt := by
  cases a <;> simp only [toInt, Except.ok.injEq] at h <;> first
    | (subst h; first | exact wrapInt_range _ | exact floatToInt_range _)
    | exact absurd h (by simp)

/-! ## `makeRange` -/

/-- C1 (evaluation at the failing input): `makeRange(3, 1)` does not return an
empty sequence. The size `1 - 3 + 1 = -1` reaches `make` unguarded and the
call panics. -/
theorem makeRange_descending_panics (memLimit : Int) :
    makeRange memLimit (.int 3) (.int 1)
      = .error "runtime error: makeslice: len out of range" := by
  rfl

/-- C2 as stated fails at `a = 0`, `b = 2 ^ 62` and at `a = 0`, `b = maxInt`: the
operands coerce and `a ≤ b`, but `make` refuses the `2 ^ 62 + 1` ints (their
bytes exceed the allocator limit), and at `maxInt` the size `b - a + 1`
overflows `int` to the smallest integer; in both cases the call panics
instead of returning a sequence of length `b - a + 1`. -/
theorem makeRange_ascending_too_long :
    toInt (.int 0) = .ok 0 ∧ toInt (.int (2 ^ 62)) = .ok (2 ^ 62) ∧ (0 : Int) ≤ 2 ^ 62 ∧
      makeRange Host.sample.memLimit (.int 0) (.int (2 ^ 62))
        = .error "runtime error: makeslice: len out of range" ∧
      toInt (.int maxInt) = .ok maxInt ∧ (0 : Int) ≤ maxInt ∧
      makeRange Host.sample.memLimit (.int 0) (.int maxInt)
        = .error "runtime error: makeslice: len out of range" := by
  refine ⟨rfl, rfl, by decide, rfl, rfl, by decide, rfl⟩

/-- C2 (amended): for operands that coerce through `toInt` to `x ≤ y` and a span
of `y - x + 1` ints that `make` can allocate (its `8 * (y - x + 1)` bytes
exceed neither the allocator limit `maxAlloc` nor the bytes `memLimit` that
the allocator can obtain), `makeRange` returns a sequence of length
`y - x + 1` whose element at every index `i ≤ y - x` is `x + i`: the inclusive
ascending sequence from `x` to `y`. -/
theorem makeRange_ascending (memLimit : Int) (a b : Value) (x y : Int)
    (ha : toInt a = .ok x) (hb : toInt b = .ok y) (hxy : x ≤ y)
    (hsz : 8 * (y - x + 1) ≤ maxAlloc) (hmem : 8 * (y - x + 1) ≤ memLimit) :
    ∃ r : List Int, makeRange memLimit a b = .ok r ∧ (r.length : Int) = y - x + 1 ∧
      ∀ i : Nat, (i : Int) ≤ y - x → r.get? i = some (x + (i : Int)) := by
  have hx := toInt_range ha
  have hy := toInt_range hb
  have hmin : minInt ≤ y - x + 1 := by
    have : minInt ≤ 0 := by decide
    omega
  have hmax : y - x + 1 ≤ maxInt := by
    unfold maxAlloc at hsz
    unfold maxInt
    norm_num at hsz ⊢
    omega
  have hsize : wrapInt (y - x + 1) = y - x + 1 := wrapInt_of_range hmin hmax
  have hok : makeslice memLimit 8 (y - x + 1) = .ok (y - x + 1).toNat := by
    have h1 : ¬ (y - x + 1 < 0 ∨ maxAlloc < 8 * (y - x + 1)) := by omega
    have h2 : ¬ (memLimit < 8 * (y - x + 1)) := by omega
    simp only [makeslice, if_neg h1, if_neg h2]
  refine ⟨List.map (fun i : Nat => wrapInt (x + (i : Int))) (List.range (y - x + 1).toNat),
    ?_, ?_, ?_⟩
  · simp only [makeRange, ha, hb, hsize, hok]
  · simp only [List.length_map, List.length_range]
    omega
  · intro i hi
    have hlt : i < (y - x + 1).toNat := by omega
    have hw : wrapInt (x + (i : Int)) = x + (i : Int) :=
      wrapInt_of_range (by omega) (by omega)
    simp [List.get?_eq_getElem?, List.getElem?_map, List.getElem?_range hlt, hw]

/-- Witness of `makeRange_ascending` on the range from 2 to 4. -/
theorem makeRange_ascending_witness :
    ∃ r : List Int, makeRange Host.sample.memLimit (.int 2) (.int8 4) = .ok r ∧
      (r.length : Int) = 4 - 2 + 1 ∧
      ∀ i : Nat, (i : Int) ≤ 4 - 2 → r.get? i = some (2 + (i : Int)) :=
  makeRange_ascending Host.sample.memLimit (.int 2) (.int8 4) 2 4 rfl rfl (by decide)
    (by decide) (by decide)

/-! ## `fetch` on a mapping -/

/-- C3 as stated fails on the mapping with the single key `b` and the absent
key `a`: `fetch` panics, it does not return the zero value. -/
theorem fetch_map_absent_key_panics :
    fetch (.map [] [("b", .int 1)]) (.string "a") = .error "%v doesn't contains %v" := by
  rfl

/-- C3 (amended): for every mapping and every key that is not present in it
(a key that is no string is never present in a string-keyed mapping),
`fetch` panics. -/
theorem fetch_map_absent (ms : List (String × Nat)) (kv : List (String × Value)) (k : Value)
    (h : ∀ s, k = .string s → mapGet s kv = none) :
    ∃ e, fetch (.map ms kv) k = .error e := by
  cases k
  case string s =>
    have hs := h s rfl
    simp only [fetch, mapIndex, hs]
    exact ⟨_, rfl⟩
  all_goals exact ⟨_, rfl⟩

/-- Witness of `fetch_map_absent`: key `a` in the mapping that binds only `b`. -/
theorem fetch_map_absent_witness :
    ∃ e, fetch (.map [] [("b", .int 1)]) (.string "a") = .error e :=
  fetch_map_absent [] [("b", .int 1)] (.string "a") (by
    intro s hs
    cases hs
    rfl)

/-! ## Decoding and frame lemmas -/

theorem Op.mem_all (o : Op) : o ∈ Op.all := by
  cases o <;> simp [Op.all]

/-- The byte of an opcode constant selects the case of that constant. -/
theorem Opcodes.decode_code (T : Opcodes) (o : Op) : T.decode (T.code o) = some o := by
  unfold Opcodes.decode
  cases h : Op.all.find? (fun o1 => decide (T.code o1 = T.code o)) with
  | none =>
    rw [List.find?_eq_none] at h
    have h1 := h o (Op.mem_all o)
    simp at h1
  | some o1 =>
    have h1 := List.find?_some h
    simp only [decide_eq_true_eq] at h1
    rw [T.inj _ _ h1]

/-- The little-endian reading of two bytes. -/
theorem operand_eq (b0 b1 : Nat) : operand b0 b1 = b0 % 256 + 256 * (b1 % 256) := by
  unfold operand
  have h0 : b0 % 256 < 2 ^ 8 := by omega
  have h1 : b1 % 256 < 256 := by omega
  have h2 : (b1 % 256) <<< 8 = 2 ^ 8 * (b1 % 256) := by
    rw [Nat.shiftLeft_eq, Nat.mul_comm]
  have h3 : 2 ^ 8 * (b1 % 256) % 65536 = 2 ^ 8 * (b1 % 256) := Nat.mod_eq_of_lt (by omega)
  rw [h2, h3, Nat.lor_comm, ← Nat.mul_add_lt_is_or h0]
  omega

theorem operand_split {i : Nat} (h : i < 65536) : operand (i % 256) (i / 256) = i := by
  rw [operand_eq]
  omega

/-- A cycle on an opcode byte runs the case of that opcode, with `pp` and `ip` updated. -/
theorem VM.cycle_eq (T : Opcodes) (H : Host) (env : Value) (vm : VM) (o : Op)
    (h : indexList vm.bytecode vm.ip = .ok (T.code o)) :
    vm.cycle T H env = VM.exec H env { vm with pp := vm.ip, ip := vm.ip + 1 } o := by
  simp only [VM.cycle, h, Opcodes.decode_code]

theorem VM.arg_eq (vm : VM) (b0 b1 : Nat) (h0 : indexList vm.bytecode vm.ip = .ok b0)
    (h1 : indexList vm.bytecode (vm.ip + 1) = .ok b1) :
    vm.arg = .ok (operand b0 b1, { vm with ip := vm.ip + 2 }) := by
  simp only [VM.arg, h0, h1]

theorem VM.pop_concat (vm : VM) (s : List Value) (v : Value) (h : vm.stack = s ++ [v]) :
    vm.pop = .ok (v, { vm with stack := s }) := by
  simp [VM.pop, h]

theorem VM.current_concat (vm : VM) (s : List Value) (v : Value) (h : vm.stack = s ++ [v]) :
    vm.current = .ok v := by
  simp [VM.current, h]

/-! ## Round trip of a pushed constant -/

/-- C5: for every constant pool, every index `i` below its length and below
65536, every environment and every host, `Run` on the program whose bytecode is
the push opcode followed by the little-endian bytes of `i` returns `constants[i]`
with a nil error, whatever the shape of that constant (two turns of fuel suffice). -/
theorem Run_push_constant (T : Opcodes) (H : Host) (env : Value) (source : Option String)
    (locations : List Location) (constants : List Value) (i : Nat)
    (hi : i < constants.length) (h16 : i < 65536) (fuel : Nat) :
    Run T H (fuel + 2)
        (some ⟨source, locations, constants, [T.code .OpPush, i % 256, i / 256]⟩) env
      = some (.returned constants[i] none) := by
  have hget : constants[i]? = some constants[i] := by
    simp [hi]
  simp [Run, VM.Run, VM.loop, NewVM, VM.cycle, Opcodes.decode_code, indexList, VM.exec,
    VM.constArg, VM.arg, operand_split h16, VM.push, VM.pop, hget, bind, Except.bind,
    pure, Except.pure]

/-- Witness of `Run_push_constant`: the constant at index 1 of a two-element pool. -/
theorem Run_push_constant_witness :
    Run Opcodes.positional Host.sample 2
      (some ⟨some "b", [], [.int 7, .string "x"],
        [Opcodes.positional.code .OpPush, 1 % 256, 1 / 256]⟩) .nil
      = some (.returned (.string "x") none) :=
  Run_push_constant Opcodes.positional Host.sample .nil (some "b") [] [.int 7, .string "x"] 1
    (by decide) (by decide) 0

/-! ## Conditional jumps -/

/-- C6: on a frame whose stack has a boolean `b` on top, a cycle on
jump-if-true or jump-if-false with operand bytes `b0 b1` leaves the stack, the
scopes, the constants and the bytecode unchanged; the instruction pointer
advances by 3, plus the offset when the predicate holds (`b` for jump-if-true,
`!b` for jump-if-false), and the program pointer records the offset of the opcode. -/
theorem jumpIf_frame (T : Opcodes) (H : Host) (env : Value) (vm : VM) (s : List Value)
    (b : Bool) (b0 b1 : Nat) (o : Op) (ho : o = .OpJumpIfTrue ∨ o = .OpJumpIfFalse)
    (hop : indexList vm.bytecode vm.ip = .ok (T.code o))
    (h0 : indexList vm.bytecode (vm.ip + 1) = .ok b0)
    (h1 : indexList vm.bytecode (vm.ip + 2) = .ok b1)
    (hs : vm.stack = s ++ [.bool b]) :
    vm.cycle T H env = .ok { vm with
      pp := vm.ip
      ip := vm.ip + 3 + (if (if o = .OpJumpIfTrue then b else !b) then (operand b0 b1 : Int) else 0) } := by
  rw [VM.cycle_eq T H env vm o hop]
  have h2 : indexList vm.bytecode (vm.ip + 1 + 1) = .ok b1 := by
    rw [show vm.ip + 1 + 1 = vm.ip + 2 by ring]
    exact h1
  have harg : VM.arg { vm with pp := vm.ip, ip := vm.ip + 1 }
      = .ok (operand b0 b1, { vm with pp := vm.ip, ip := vm.ip + 1 + 2 }) :=
    VM.arg_eq _ b0 b1 h0 h2
  have hcur : VM.current { vm with pp := vm.ip, ip := vm.ip + 1 + 2 } = .ok (.bool b) :=
    VM.current_concat _ s _ hs
  rcases ho with rfl | rfl
  · simp only [VM.exec, harg, hcur, asBool, bind, Except.bind, pure, Except.pure]
    cases b <;> simp <;> omega
  · simp only [VM.exec, harg, hcur, asBool, bind, Except.bind, pure, Except.pure]
    cases b <;> simp <;> omega

/-- Witness of `jumpIf_frame`: jump-if-true with offset 5 on a true top (taken),
and jump-if-false with offset 5 on a true top (not taken). -/
theorem jumpIf_frame_witness :
    VM.cycle Opcodes.positional Host.sample .nil
        ⟨[.int 1, .bool true], [], [Opcodes.positional.code .OpJumpIfTrue, 5, 0], 0, 0, []⟩
      = .ok ⟨[.int 1, .bool true], [], [Opcodes.positional.code .OpJumpIfTrue, 5, 0], 8, 0, []⟩ ∧
    VM.cycle Opcodes.positional Host.sample .nil
        ⟨[.int 1, .bool true], [], [Opcodes.positional.code .OpJumpIfFalse, 5, 0], 0, 0, []⟩
      = .ok ⟨[.int 1, .bool true], [], [Opcodes.positional.code .OpJumpIfFalse, 5, 0], 3, 0, []⟩ :=
  ⟨jumpIf_frame Opcodes.positional Host.sample .nil
      ⟨[.int 1, .bool true], [], [Opcodes.positional.code .OpJumpIfTrue, 5, 0], 0, 0, []⟩
      [.int 1] true 5 0 .OpJumpIfTrue (Or.inl rfl) rfl rfl rfl rfl,
   jumpIf_frame Opcodes.positional Host.sample .nil
      ⟨[.int 1, .bool true], [], [Opcodes.positional.code .OpJumpIfFalse, 5, 0], 0, 0, []⟩
      [.int 1] true 5 0 .OpJumpIfFalse (Or.inr rfl) rfl rfl rfl rfl⟩

/-! ## Specialised equality -/

/-- C7: a cycle on equal-int (resp. equal-string) with the two operands `a`
(below) and `b` (top) on the stack pushes the boolean `a = b` in place of the
operands when both are of the plain `int` type (resp. both strings), and
panics when either is not: an integer of another width, a float or any other
value is never coerced. -/
theorem equalInt_equalString (T : Opcodes) (H : Host) (env : Value) (vm : VM)
    (s : List Value) (a b : Value) (hs : vm.stack = s ++ [a, b]) :
    (indexList vm.bytecode vm.ip = .ok (T.code .OpEqualInt) →
      (∀ x y, a = .int x → b = .int y →
        vm.cycle T H env = .ok { vm with
          pp := vm.ip, ip := vm.ip + 1, stack := s ++ [.bool (decide (x = y))] }) ∧
      (((∀ x, a ≠ .int x) ∨ (∀ y, b ≠ .int y)) → ∃ e, vm.cycle T H env = .error e)) ∧
    (indexList vm.bytecode vm.ip = .ok (T.code .OpEqualString) →
      (∀ x y, a = .string x → b = .string y →
        vm.cycle T H env = .ok { vm with
          pp := vm.ip, ip := vm.ip + 1, stack := s ++ [.bool (decide (x = y))] }) ∧
      (((∀ x, a ≠ .string x) ∨ (∀ y, b ≠ .string y)) → ∃ e, vm.cycle T H env = .error e)) := by
  have hpb : VM.pop { vm with pp := vm.ip, ip := vm.ip + 1 }
      = .ok (b, { vm with pp := vm.ip, ip := vm.ip + 1, stack := s ++ [a] }) :=
    VM.pop_concat _ (s ++ [a]) b (by simp [hs])
  have hpa : VM.pop { vm with pp := vm.ip, ip := vm.ip + 1, stack := s ++ [a] }
      = .ok (a, { vm with pp := vm.ip, ip := vm.ip + 1, stack := s }) :=
    VM.pop_concat _ s a rfl
  refine ⟨fun hop => ⟨?_, ?_⟩, fun hop => ⟨?_, ?_⟩⟩
  · rintro x y rfl rfl
    rw [VM.cycle_eq T H env vm _ hop]
    simp only [VM.exec, hpb, hpa, asInt, VM.push, bind, Except.bind, pure, Except.pure]
  · intro hne
    rw [VM.cycle_eq T H env vm _ hop]
    simp only [VM.exec, hpb, hpa, bind, Except.bind]
    rcases hne with ha | hb
    · cases a <;> first | exact absurd rfl (ha _) | exact ⟨_, rfl⟩
    · cases b <;> first | exact absurd rfl (hb _) | skip
      all_goals cases a <;> exact ⟨_, rfl⟩
  · rintro x y rfl rfl
    rw [VM.cycle_eq T H env vm _ hop]
    simp only [VM.exec, hpb, hpa, asString, VM.push, bind, Except.bind, pure, Except.pure]
  · intro hne
    rw [VM.cycle_eq T H env vm _ hop]
    simp only [VM.exec, hpb, hpa, bind, Except.bind]
    rcases hne with ha | hb
    · cases a <;> first | exact absurd rfl (ha _) | exact ⟨_, rfl⟩
    · cases b <;> first | exact absurd rfl (hb _) | skip
      all_goals cases a <;> exact ⟨_, rfl⟩

/-- Witness of `equalInt_equalString`: equal-int on two equal `int`s pushes
true, equal-int on an `int` and an `int64` of the same value panics, and
equal-string on a string and an `int` panics. -/
theorem equalInt_equalString_witness :
    VM.cycle Opcodes.positional Host.sample .nil
        ⟨[.int 3, .int 3], [], [Opcodes.positional.code .OpEqualInt], 0, 0, []⟩
      = .ok ⟨[.bool true], [], [Opcodes.positional.code .OpEqualInt], 1, 0, []⟩ ∧
    (∃ e, VM.cycle Opcodes.positional Host.sample .nil
        ⟨[.int 3, .int64 3], [], [Opcodes.positional.code .OpEqualInt], 0, 0, []⟩ = .error e) ∧
    (∃ e, VM.cycle Opcodes.positional Host.sample .nil
        ⟨[.string "3", .int 3], [], [Opcodes.positional.code .OpEqualString], 0, 0, []⟩
      = .error e) :=
  ⟨((equalInt_equalString Opcodes.positional Host.sample .nil
      ⟨[.int 3, .int 3], [], [Opcodes.positional.code .OpEqualInt], 0, 0, []⟩
      [] (.int 3) (.int 3) rfl).1 rfl).1 3 3 rfl rfl,
   ((equalInt_equalString Opcodes.positional Host.sample .nil
      ⟨[.int 3, .int64 3], [], [Opcodes.positional.code .OpEqualInt], 0, 0, []⟩
      [] (.int 3) (.int64 3) rfl).1 rfl).2 (Or.inr (fun _ h => Value.noConfusion h)),
   ((equalInt_equalString Opcodes.positional Host.sample .nil
      ⟨[.string "3", .int 3], [], [Opcodes.positional.code .OpEqualString], 0, 0, []⟩
      [] (.string "3") (.int 3) rfl).2 rfl).2 (Or.inr (fun _ h => Value.noConfusion h))⟩

/-! ## `length` -/

/-- C8: `length` returns the number of elements of every sequence and the
(byte) length of every string without panicking, and panics on every
mapping and every record (a `Call` descriptor included). -/
theorem length_shapes :
    (∀ xs : List Value, length (.slice xs) = .ok (xs.length : Int)) ∧
    (∀ s : String, length (.string s) = .ok (s.utf8ByteSize : Int)) ∧
    (∀ ms kv, ∃ e, length (.map ms kv) = .error e) ∧
    (∀ ms fs, ∃ e, length (.struct ms fs) = .error e) ∧
    (∀ name size, ∃ e, length (.call name size) = .error e) :=
  ⟨fun _ => rfl, fun _ => rfl, fun _ _ => ⟨_, rfl⟩, fun _ _ => ⟨_, rfl⟩, fun _ _ => ⟨_, rfl⟩⟩

/-! ## The fill loop of the call, method and array opcodes -/

/-- The fill loop with `n` iterations left, on a stack whose top `n` values are
`xs` (in push order) and an array whose first `n` slots are still to be
written: the slots receive `xs` in push order and the stack loses them. -/
theorem VM.popInto_spec (n : Nat) :
    ∀ (pre suf xs s : List Value) (vm : VM), pre.length = n → xs.length = n →
      vm.stack = s ++ xs →
      VM.popInto n (pre ++ suf) vm = .ok (xs ++ suf, { vm with stack := s }) := by
  induction n with
  | zero =>
    intro pre suf xs s vm hpre hxs hst
    have h1 : pre = [] := List.length_eq_zero.mp hpre
    have h2 : xs = [] := List.length_eq_zero.mp hxs
    subst h1 h2
    simp only [List.append_nil] at hst
    simp only [VM.popInto, List.nil_append, ← hst]
  | succ n ih =>
    intro pre suf xs s vm hpre hxs hst
    rcases List.eq_nil_or_concat xs with h | ⟨xs1, x, h⟩
    · subst h
      simp at hxs
    rcases List.eq_nil_or_concat pre with h1 | ⟨pre1, p, h1⟩
    · subst h1
      simp at hpre
    rw [List.concat_eq_append] at h h1
    subst h h1
    have hxs1 : xs1.length = n := by simpa using hxs
    have hpre1 : pre1.length = n := by simpa using hpre
    have hpop : vm.pop = .ok (x, { vm with stack := s ++ xs1 }) :=
      VM.pop_concat vm (s ++ xs1) x (by simp [hst])
    have hset : (pre1 ++ [p] ++ suf).set n x = pre1 ++ (x :: suf) := by
      rw [List.append_assoc, List.set_append]
      simp [hpre1]
    simp only [VM.popInto, hpop, hset]
    rw [ih pre1 (x :: suf) xs1 s { vm with stack := s ++ xs1 } hpre1 hxs1 rfl]
    simp

/-- The allocation `make` and the fill loop on a stack `s ++ xs` with `size = len(xs)`: the
array is `xs` in push order and the stack is `s`. -/
theorem VM.popArray_spec (vm : VM) (s xs : List Value) (hst : vm.stack = s ++ xs) :
    vm.popArray (xs.length : Int) = .ok (xs, { vm with stack := s }) := by
  have hnn : ¬ ((xs.length : Int) < 0) := by omega
  simp only [VM.popArray, if_neg hnn, Int.toNat_ofNat]
  have h := VM.popInto_spec xs.length (List.replicate xs.length Value.nil) [] xs s vm
    (by simp) rfl hst
  simpa using h

/-! ## Array construction -/

/-- C9: on a stack `s ++ es ++ [n]` whose top is the `int` count `n = len(es)`,
a cycle on the array opcode leaves `s ++ [es]`: one sequence holding the `n`
values in the order they were pushed, above an unchanged `s`. -/
theorem array_builds_in_push_order (T : Opcodes) (H : Host) (env : Value) (vm : VM)
    (s es : List Value)
    (hop : indexList vm.bytecode vm.ip = .ok (T.code .OpArray))
    (hs : vm.stack = s ++ es ++ [.int (es.length : Int)]) :
    vm.cycle T H env = .ok { vm with
      pp := vm.ip, ip := vm.ip + 1, stack := s ++ [.slice es] } := by
  rw [VM.cycle_eq T H env vm _ hop]
  have hpn : VM.pop { vm with pp := vm.ip, ip := vm.ip + 1 }
      = .ok (.int (es.length : Int), { vm with pp := vm.ip, ip := vm.ip + 1, stack := s ++ es }) :=
    VM.pop_concat _ (s ++ es) _ hs
  have harr := VM.popArray_spec { vm with pp := vm.ip, ip := vm.ip + 1, stack := s ++ es } s es rfl
  simp only [VM.exec, hpn, asInt, harr, VM.push, bind, Except.bind, pure, Except.pure]

/-- Witness of `array_builds_in_push_order`: three values pushed as 1, 2, 3. -/
theorem array_builds_in_push_order_witness :
    VM.cycle Opcodes.positional Host.sample .nil
        ⟨[.bool true, .int 1, .int 2, .int 3, .int 3], [],
          [Opcodes.positional.code .OpArray], 0, 0, []⟩
      = .ok ⟨[.bool true, .slice [.int 1, .int 2, .int 3]], [],
          [Opcodes.positional.code .OpArray], 1, 0, []⟩ :=
  array_builds_in_push_order Opcodes.positional Host.sample .nil
    ⟨[.bool true, .int 1, .int 2, .int 3, .int 3], [],
      [Opcodes.positional.code .OpArray], 0, 0, []⟩
    [.bool true] [.int 1, .int 2, .int 3] rfl rfl

/-! ## Calls -/

/-- C4 as stated fails for arity 2: with `1` pushed first and `2` pushed last,
a callable that returns its first argument (every callable of `Host.sample`
does) returns `1`: the first argument is the first pushed value, not the last. -/
theorem call_first_argument_is_first_pushed :
    VM.cycle Opcodes.positional Host.sample (.map [] [("f", .func 0)])
        ⟨[.int 1, .int 2], [.call "f" 2], [Opcodes.positional.code .OpCall, 0, 0], 0, 0, []⟩
      = .ok ⟨[.int 1], [.call "f" 2], [Opcodes.positional.code .OpCall, 0, 0], 3, 0, []⟩ := by
  rfl

/-- C4 (amended): for a `Call` descriptor `name` of arity `len(args)` and a
stack whose top values are `args` in push order, the call opcode pops them
in reverse into slots `n-1` down to `0`, so that the callable resolved by
`fetchFn` on the environment is invoked on `args` in push order (first
pushed value first, last pushed value last), and its first result replaces
the arguments on the stack; the method opcode does the same with the
receiver popped from beneath the arguments. -/
theorem call_args_in_push_order (T : Opcodes) (H : Host) (env : Value) (vm : VM)
    (s args : List Value) (name : String) (b0 b1 : Nat)
    (h0 : indexList vm.bytecode (vm.ip + 1) = .ok b0)
    (h1 : indexList vm.bytecode (vm.ip + 2) = .ok b1)
    (hc : vm.constants.get? (operand b0 b1) = some (.call name (args.length : Int))) :
    (indexList vm.bytecode vm.ip = .ok (T.code .OpCall) → vm.stack = s ++ args →
      vm.cycle T H env = (do
        let fn ← fetchFn env name
        let out ← H.call fn args
        let r ← firstResult out
        pure { vm with pp := vm.ip, ip := vm.ip + 3, stack := s ++ [r] })) ∧
    (indexList vm.bytecode vm.ip = .ok (T.code .OpMethod) →
      ∀ obj, vm.stack = s ++ [obj] ++ args →
      vm.cycle T H env = (do
        let fn ← fetchFn obj name
        let out ← H.call fn args
        let r ← firstResult out
        pure { vm with pp := vm.ip, ip := vm.ip + 3, stack := s ++ [r] })) := by
  have h2 : indexList vm.bytecode (vm.ip + 1 + 1) = .ok b1 := by
    rw [show vm.ip + 1 + 1 = vm.ip + 2 by ring]
    exact h1
  have hip : vm.ip + 1 + 2 = vm.ip + 3 := by ring
  have harg : VM.arg { vm with pp := vm.ip, ip := vm.ip + 1 }
      = .ok (operand b0 b1, { vm with pp := vm.ip, ip := vm.ip + 3 }) := by
    rw [VM.arg_eq _ b0 b1 h0 h2]
    simp only [hip]
  have hca : VM.constArg { vm with pp := vm.ip, ip := vm.ip + 1 }
      = .ok (.call name (args.length : Int), { vm with pp := vm.ip, ip := vm.ip + 3 }) := by
    simp only [VM.constArg, harg, hc]
  refine ⟨fun hop hs => ?_, fun hop obj hs => ?_⟩
  · rw [VM.cycle_eq T H env vm _ hop]
    have harr := VM.popArray_spec { vm with pp := vm.ip, ip := vm.ip + 3 } s args hs
    simp only [VM.exec, hca, asCall, harr, bind, Except.bind, pure, Except.pure, VM.push]
  · rw [VM.cycle_eq T H env vm _ hop]
    have harr := VM.popArray_spec { vm with pp := vm.ip, ip := vm.ip + 3 } (s ++ [obj]) args hs
    have hpo : VM.pop { vm with pp := vm.ip, ip := vm.ip + 3, stack := s ++ [obj] }
        = .ok (obj, { vm with pp := vm.ip, ip := vm.ip + 3, stack := s }) :=
      VM.pop_concat _ s obj rfl
    simp only [VM.exec, hca, asCall, harr, hpo, bind, Except.bind, pure, Except.pure, VM.push]

/-- Witness of `call_args_in_push_order`: a call of arity 2 on the stack `1, 2`. -/
theorem call_args_in_push_order_witness :
    VM.cycle Opcodes.positional Host.sample (.map [] [("f", .func 0)])
        ⟨[.int 1, .int 2], [.call "f" 2], [Opcodes.positional.code .OpCall, 0, 0], 0, 0, []⟩
      = (do
        let fn ← fetchFn (.map [] [("f", .func 0)]) "f"
        let out ← Host.sample.call fn [.int 1, .int 2]
        let r ← firstResult out
        pure ⟨[] ++ [r], [.call "f" 2], [Opcodes.positional.code .OpCall, 0, 0], 0 + 3, 0, []⟩) :=
  (call_args_in_push_order Opcodes.positional Host.sample (.map [] [("f", .func 0)])
    ⟨[.int 1, .int 2], [.call "f" 2], [Opcodes.positional.code .OpCall, 0, 0], 0, 0, []⟩
    [] [.int 1, .int 2] "f" 0 0 rfl rfl rfl).1 rfl rfl

/-! ## Map construction -/

theorem flatPairs_append (xs ys : List (Value × Value)) :
    flatPairs (xs ++ ys) = flatPairs xs ++ flatPairs ys := by
  induction xs with
  | nil => rfl
  | cons p rest ih =>
    obtain ⟨k, v⟩ := p
    simp [flatPairs, ih]

theorem mapGet_filter_ne (m : List (String × Value)) (k k1 : String) (h : k1 ≠ k) :
    mapGet k (m.filter (fun p => !decide (p.1 = k1))) = mapGet k m := by
  induction m with
  | nil => rfl
  | cons p rest ih =>
    obtain ⟨k2, v⟩ := p
    by_cases h2 : k2 = k1
    · subst h2
      simp [List.filter_cons, mapGet, h, ih]
    · have hkk : ¬ k = k1 := fun e => h e.symm
      by_cases h3 : k2 = k
      · simp [List.filter_cons, mapGet, h3, hkk]
      · simp [List.filter_cons, mapGet, h2, h3, ih]

/-- Reading a Go map after an assignment. -/
theorem mapGet_mapSet (m : List (String × Value)) (k k1 : String) (v : Value) :
    mapGet k (mapSet m k1 v) = if k1 = k then some v else mapGet k m := by
  by_cases h : k1 = k
  · simp [mapSet, mapGet, h]
  · simp [mapSet, mapGet, h, mapGet_filter_ne m k k1 h]

/-- The mapping built by assigning the pairs from the last to the first binds
each key to the value of its FIRST pair. -/
theorem mapGet_foldr_mapSet (kvs : List (String × Value)) (m : List (String × Value))
    (k : String) :
    mapGet k (kvs.foldr (fun p acc => mapSet acc p.1 p.2) m)
      = match mapGet k kvs with
        | some v => some v
        | none => mapGet k m := by
  induction kvs with
  | nil => rfl
  | cons p rest ih =>
    obtain ⟨k1, v⟩ := p
    rw [List.foldr_cons, mapGet_mapSet]
    by_cases h : k1 = k
    · simp [mapGet, h]
    · simp [mapGet, h, ih]

theorem mapGet_of_mem_nodup (kvs : List (String × Value)) (hnd : (kvs.map Prod.fst).Nodup)
    (p : String × Value) (hp : p ∈ kvs) : mapGet p.1 kvs = some p.2 := by
  induction kvs with
  | nil => simp at hp
  | cons q rest ih =>
    obtain ⟨k1, v⟩ := q
    simp only [List.map_cons, List.nodup_cons] at hnd
    rcases List.mem_cons.mp hp with h | h
    · subst h
      simp [mapGet]
    · have hne : k1 ≠ p.1 := by
        intro he
        exact hnd.1 (he ▸ List.mem_map_of_mem Prod.fst h)
      simp [mapGet, hne, ih hnd.2 h]

theorem mapGet_isSome_iff (kvs : List (String × Value)) (k : String) :
    (mapGet k kvs).isSome = true ↔ k ∈ kvs.map Prod.fst := by
  induction kvs with
  | nil => simp [mapGet]
  | cons q rest ih =>
    obtain ⟨k1, v⟩ := q
    by_cases h : k1 = k
    · simp [mapGet, h]
    · have h1 : ¬ k = k1 := fun e => h e.symm
      simp [mapGet, h, h1, ih]

/-- The loop of the map opcode on string-keyed pairs: all pairs are consumed
and assigned from the last pushed to the first pushed. -/
theorem VM.popPairs_spec (kvs : List (String × Value)) :
    ∀ (m : List (String × Value)) (s : List Value) (vm : VM),
      vm.stack = s ++ flatPairs (kvs.map strPair) →
      VM.popPairs kvs.length m vm
        = .ok (kvs.foldr (fun p acc => mapSet acc p.1 p.2) m, { vm with stack := s }) := by
  induction kvs using List.reverseRecOn with
  | nil =>
    intro m s vm hst
    simp only [List.map_nil, flatPairs, List.append_nil] at hst
    simp only [List.length_nil, VM.popPairs, List.foldr_nil, ← hst]
  | append_singleton kvs p ih =>
    intro m s vm hst
    obtain ⟨k, v⟩ := p
    have hst1 : vm.stack = (s ++ flatPairs (kvs.map strPair) ++ [.string k]) ++ [v] := by
      simp [hst, flatPairs_append, flatPairs, strPair]
    have hp1 := VM.pop_concat vm _ v hst1
    have hp2 := VM.pop_concat
      { vm with stack := s ++ flatPairs (kvs.map strPair) ++ [.string k] }
      (s ++ flatPairs (kvs.map strPair)) (.string k) rfl
    simp only [List.length_append, List.length_singleton, VM.popPairs, hp1, hp2]
    rw [ih (mapSet m k v) s { vm with stack := s ++ flatPairs (kvs.map strPair) } rfl]
    simp [List.foldr_append]

/-- The loop of the map opcode panics as soon as it meets a key that is no string. -/
theorem VM.popPairs_panics (pairs : List (Value × Value)) :
    ∀ (m : List (String × Value)) (s : List Value) (vm : VM),
      vm.stack = s ++ flatPairs pairs →
      (∃ p ∈ pairs, ∀ k, p.1 ≠ .string k) →
      ∃ e, VM.popPairs pairs.length m vm = .error e := by
  induction pairs using List.reverseRecOn with
  | nil =>
    intro m s vm _ hex
    obtain ⟨p, hp, _⟩ := hex
    simp at hp
  | append_singleton pairs p ih =>
    intro m s vm hst hex
    obtain ⟨key, v⟩ := p
    have hst1 : vm.stack = (s ++ flatPairs pairs ++ [key]) ++ [v] := by
      simp [hst, flatPairs_append, flatPairs]
    have hp1 := VM.pop_concat vm _ v hst1
    have hp2 := VM.pop_concat { vm with stack := s ++ flatPairs pairs ++ [key] }
      (s ++ flatPairs pairs) key rfl
    simp only [List.length_append, List.length_singleton, VM.popPairs, hp1, hp2]
    by_cases hk : ∃ k, key = .string k
    · obtain ⟨k, rfl⟩ := hk
      have hex1 : ∃ q ∈ pairs, ∀ k1, q.1 ≠ .string k1 := by
        obtain ⟨q, hq, hqs⟩ := hex
        rcases List.mem_append.mp hq with h | h
        · exact ⟨q, h, hqs⟩
        · simp only [List.mem_singleton] at h
          subst h
          exact absurd rfl (hqs k)
      exact ih (mapSet m k v) s { vm with stack := s ++ flatPairs pairs } rfl hex1
    · cases key with
      | string k => exact absurd ⟨k, rfl⟩ hk
      | _ => exact ⟨_, rfl⟩

/-- C10: on a stack `s ++ [k1, v1, ..., kn, vn, n]` whose top is the `int` count
`n`, a cycle on the map opcode (1) with string keys that are pairwise distinct
leaves `s ++ [m]` where `m` is the string-keyed mapping whose keys are exactly
`k1..kn` and that binds every `ki` to `vi`, and (2) panics if any key is not a string. -/
theorem map_builds_from_pairs (T : Opcodes) (H : Host) (env : Value) (vm : VM)
    (s : List Value) (hop : indexList vm.bytecode vm.ip = .ok (T.code .OpMap)) :
    (∀ kvs : List (String × Value), (kvs.map Prod.fst).Nodup →
      vm.stack = s ++ flatPairs (kvs.map strPair) ++ [.int (kvs.length : Int)] →
      ∃ m, vm.cycle T H env = .ok { vm with
          pp := vm.ip, ip := vm.ip + 1, stack := s ++ [.map [] m] } ∧
        (∀ p ∈ kvs, mapGet p.1 m = some p.2) ∧
        (∀ k, (mapGet k m).isSome = true ↔ k ∈ kvs.map Prod.fst)) ∧
    (∀ pairs : List (Value × Value), (∃ p ∈ pairs, ∀ k, p.1 ≠ .string k) →
      vm.stack = s ++ flatPairs pairs ++ [.int (pairs.length : Int)] →
      ∃ e, vm.cycle T H env = .error e) := by
  refine ⟨fun kvs hnd hs => ?_, fun pairs hex hs => ?_⟩
  · refine ⟨kvs.foldr (fun p acc => mapSet acc p.1 p.2) [], ?_, ?_, ?_⟩
    · rw [VM.cycle_eq T H env vm _ hop]
      have hpn := VM.pop_concat { vm with pp := vm.ip, ip := vm.ip + 1 }
        (s ++ flatPairs (kvs.map strPair)) (.int (kvs.length : Int)) hs
      have hpp := VM.popPairs_spec kvs []  s
        { vm with pp := vm.ip, ip := vm.ip + 1, stack := s ++ flatPairs (kvs.map strPair) } rfl
      simp only [VM.exec, hpn, asInt, Int.toNat_ofNat, hpp, VM.push, bind, Except.bind, pure,
        Except.pure]
    · intro p hp
      rw [mapGet_foldr_mapSet, mapGet_of_mem_nodup kvs hnd p hp]
    · intro k
      rw [mapGet_foldr_mapSet, ← mapGet_isSome_iff kvs k]
      cases mapGet k kvs <;> simp [mapGet]
  · rw [VM.cycle_eq T H env vm _ hop]
    have hpn := VM.pop_concat { vm with pp := vm.ip, ip := vm.ip + 1 }
      (s ++ flatPairs pairs) (.int (pairs.length : Int)) hs
    obtain ⟨e, he⟩ := VM.popPairs_panics pairs [] s
      { vm with pp := vm.ip, ip := vm.ip + 1, stack := s ++ flatPairs pairs } rfl hex
    exact ⟨e, by
      simp only [VM.exec, hpn, asInt, Int.toNat_ofNat, he, bind, Except.bind]⟩

/-- Witness of `map_builds_from_pairs`: the pairs `a: 1`, `b: 2` build a mapping
with exactly these bindings, and the pairs `a: 1`, `7: 2` make the opcode panic. -/
theorem map_builds_from_pairs_witness :
    (∃ m, VM.cycle Opcodes.positional Host.sample .nil
        ⟨[.nil, .string "a", .int 1, .string "b", .int 2, .int 2], [],
          [Opcodes.positional.code .OpMap], 0, 0, []⟩
        = .ok ⟨[.nil, .map [] m], [], [Opcodes.positional.code .OpMap], 1, 0, []⟩ ∧
      (∀ p ∈ [("a", Value.int 1), ("b", Value.int 2)], mapGet p.1 m = some p.2) ∧
      (∀ k, (mapGet k m).isSome = true ↔
        k ∈ [("a", Value.int 1), ("b", Value.int 2)].map Prod.fst)) ∧
    (∃ e, VM.cycle Opcodes.positional Host.sample .nil
        ⟨[.nil, .string "a", .int 1, .int 7, .int 2, .int 2], [],
          [Opcodes.positional.code .OpMap], 0, 0, []⟩ = .error e) :=
  ⟨(map_builds_from_pairs Opcodes.positional Host.sample .nil
      ⟨[.nil, .string "a", .int 1, .string "b", .int 2, .int 2], [],
        [Opcodes.positional.code .OpMap], 0, 0, []⟩ [.nil] rfl).1
      [("a", .int 1), ("b", .int 2)] (by decide) rfl,
   (map_builds_from_pairs Opcodes.positional Host.sample .nil
      ⟨[.nil, .string "a", .int 1, .int 7, .int 2, .int 2], [],
        [Opcodes.positional.code .OpMap], 0, 0, []⟩ [.nil] rfl).2
      [(.string "a", .int 1), (.int 7, .int 2)]
      ⟨(.int 7, .int 2), by simp, fun _ h => Value.noConfusion h⟩ rfl⟩

/-! ## Numeric coercions -/

/-- C13 as stated fails on the `uint64` value `2 ^ 63`: `toInt` and `toInt64`
return the negative integer `-(2 ^ 63)`, not the same numeric value. -/
theorem toInt_uint64_wraps :
    IntType.holds .uint64 (2 ^ 63) ∧
      toInt (.uint64 (2 ^ 63)) = .ok (-(2 ^ 63)) ∧ toInt64 (.uint64 (2 ^ 63)) = .ok (-(2 ^ 63)) := by
  refine ⟨?_, rfl, rfl⟩
  simp [IntType.holds, IntType.signed, IntType.bits]

/-- C13 (amended): `toInt` and `toInt64` (1) return, without panicking, the
numeric value of every integer input of every signed or unsigned width whose
value is at most `maxInt` (every value of the signed widths and of `uint8`,
`uint16`, `uint32`); (2) wrap a `uint` or `uint64` value above `maxInt` to
that value minus `2 ^ 64`; (3) truncate a fractional float toward zero, `3.9`
giving `3`; (4) panic on every input that is not numeric. -/
theorem toInt_toInt64_spec :
    (∀ (t : IntType) (x : Int), t.holds x → x ≤ maxInt →
      toInt (t.value x) = .ok x ∧ toInt64 (t.value x) = .ok x) ∧
    (∀ (t : IntType) (x : Int), t.holds x → maxInt < x →
      toInt (t.value x) = .ok (x - 2 ^ 64) ∧ toInt64 (t.value x) = .ok (x - 2 ^ 64)) ∧
    (∀ (m : Int) (k : Nat), -(2 ^ 53) < m → m < 2 ^ 53 →
      toInt (.float64 (.fin m (-(k : Int)))) = .ok (m.tdiv (2 ^ k)) ∧
      toInt64 (.float64 (.fin m (-(k : Int)))) = .ok (m.tdiv (2 ^ k)) ∧
      toInt (.float32 (.fin m (-(k : Int)))) = .ok (m.tdiv (2 ^ k)) ∧
      toInt64 (.float32 (.fin m (-(k : Int)))) = .ok (m.tdiv (2 ^ k))) ∧
    (toInt (.float64 (.fin 8782019273372467 (-51))) = .ok 3 ∧
      toInt64 (.float64 (.fin 8782019273372467 (-51))) = .ok 3) ∧
    (∀ a : Value, a.isNumeric = false →
      (∃ e, toInt a = .error e) ∧ (∃ e, toInt64 a = .error e)) := by
  refine ⟨?_, ?_, ?_, ⟨rfl, rfl⟩, ?_⟩
  · intro t x hx hmax
    have hw : wrapSigned 64 x = x := by
      unfold maxInt at hmax
      cases t <;>
        simp only [IntType.holds, IntType.signed, IntType.bits, intBits, if_true,
          Bool.false_eq_true, if_false] at hx <;>
        unfold wrapSigned <;> norm_num at hx ⊢ <;> omega
    cases t <;> simp [IntType.value, toInt, toInt64, wrapInt, intBits, hw]
  · intro t x hx hmax
    have hw : wrapSigned 64 x = x - 2 ^ 64 := by
      unfold maxInt at hmax
      cases t <;>
        simp only [IntType.holds, IntType.signed, IntType.bits, intBits, if_true,
          Bool.false_eq_true, if_false] at hx <;>
        unfold wrapSigned <;> norm_num at hx hmax ⊢ <;> omega
    cases t <;> simp [IntType.value, toInt, toInt64, wrapInt, intBits, hw]
  · intro m k hlo hhi
    have hpos : (0 : Int) < 2 ^ k := by positivity
    have habs : (m.tdiv (2 ^ k)).natAbs ≤ m.natAbs := by
      rw [Int.natAbs_tdiv]
      exact Nat.div_le_self _ _
    have hr : minInt ≤ m.tdiv (2 ^ k) ∧ m.tdiv (2 ^ k) ≤ maxInt := by
      unfold minInt maxInt
      norm_num at hlo hhi ⊢
      omega
    have hf : floatToInt (.fin m (-(k : Int))) = m.tdiv (2 ^ k) := by
      by_cases hk : k = 0
      · subst hk
        simp only [pow_zero, Int.tdiv_one] at hr ⊢
        simp [floatToInt, Flt.trunc, hr]
      · have hneg : ¬ (0 : Int) ≤ -(k : Int) := by omega
        simp [floatToInt, Flt.trunc, hneg, hr]
    simp only [toInt, toInt64, hf, and_self]
  · intro a ha
    cases a <;> simp only [Value.isNumeric, Bool.true_eq_false] at ha <;>
      exact ⟨⟨_, rfl⟩, ⟨_, rfl⟩⟩

/-- Witness of `toInt_toInt64_spec`: the `int8` value -5, the `uint64` value
`2 ^ 64 - 1`, the float -7/2 and a string. -/
theorem toInt_toInt64_spec_witness :
    (toInt (.int8 (-5)) = .ok (-5) ∧ toInt64 (.int8 (-5)) = .ok (-5)) ∧
    (toInt (.uint64 (2 ^ 64 - 1)) = .ok (2 ^ 64 - 1 - 2 ^ 64) ∧
      toInt64 (.uint64 (2 ^ 64 - 1)) = .ok (2 ^ 64 - 1 - 2 ^ 64)) ∧
    toInt (.float64 (.fin (-7) (-((1 : Nat) : Int)))) = .ok ((-7 : Int).tdiv (2 ^ 1)) ∧
    (∃ e, toInt (.string "3") = .error e) :=
  ⟨toInt_toInt64_spec.1 .int8 (-5) (by simp [IntType.holds, IntType.signed, IntType.bits])
      (by decide),
   toInt_toInt64_spec.2.1 .uint64 (2 ^ 64 - 1)
      (by simp [IntType.holds, IntType.signed, IntType.bits]) (by decide),
   (toInt_toInt64_spec.2.2.1 (-7) 1 (by decide) (by decide)).1,
   (toInt_toInt64_spec.2.2.2.2 (.string "3") rfl).1⟩

/-! ## The nil literal -/

/-- C14 (evaluation at the failing input): `Run` on the one-instruction
program of the nil opcode returns a non-nil pointer to an empty record,
whereas `Run` on a program that ends with an empty stack returns nil. -/
theorem Run_nil_opcode_not_nil (T : Opcodes) (H : Host) (env : Value) (source : Option String)
    (locations : List Location) (constants : List Value) (fuel : Nat) :
    Run T H (fuel + 2) (some ⟨source, locations, constants, [T.code .OpNil]⟩) env
        = some (.returned emptyStructPtr none) ∧
      Run T H (fuel + 1) (some ⟨source, locations, constants, []⟩) env
        = some (.returned .nil none) ∧
      emptyStructPtr ≠ Value.nil := by
  refine ⟨?_, ?_, fun h => Value.noConfusion h⟩
  · simp [Run, VM.Run, VM.loop, NewVM, VM.cycle, Opcodes.decode_code, indexList, VM.exec,
      VM.push, VM.pop, pure, Except.pure]
  · simp [Run, VM.Run, VM.loop, NewVM, VM.pop]

/-! ## Callable resolution -/

/-- C15: when the method set of the receiver has a method named `name`,
`fetchFn` returns that method, whatever map entry or field of the same name the
receiver (or its pointee) has; and when the receiver has no such method and,
after one level of pointer indirection is removed, no map entry and no field of
that name, `fetchFn` panics. -/
theorem fetchFn_prefers_method (frm : Value) (name : String) :
    (∀ f, methodGet name frm.methods = some f → fetchFn frm name = .ok (.func f)) ∧
    (methodGet name frm.methods = none → frm.deref.entry name = none →
      ∃ e, fetchFn frm name = .error e) := by
  constructor
  · intro f hf
    simp only [fetchFn, hf]
  · intro hm he
    simp only [fetchFn, hm]
    cases frm with
    | ptr ms target =>
      cases target <;> simp_all [Value.deref, Value.entry]
    | _ => simp_all [Value.deref, Value.entry]

/-- Witness of `fetchFn_prefers_method`: a record and a mapping that have both a
method and a field or entry named `F`, and a record that has neither. -/
theorem fetchFn_prefers_method_witness :
    fetchFn (.struct [("F", 7)] [("F", .func 1)]) "F" = .ok (.func 7) ∧
    fetchFn (.map [("F", 7)] [("F", .func 1)]) "F" = .ok (.func 7) ∧
    (∃ e, fetchFn (.struct [("G", 7)] [("H", .func 1)]) "F" = .error e) :=
  ⟨(fetchFn_prefers_method (.struct [("F", 7)] [("F", .func 1)]) "F").1 7 rfl,
   (fetchFn_prefers_method (.map [("F", 7)] [("F", .func 1)]) "F").1 7 rfl,
   (fetchFn_prefers_method (.struct [("G", 7)] [("H", .func 1)]) "F").2 rfl rfl⟩

/-! ## The two environment fetches -/

/-- C16 (evaluation at the failing input): on the empty mapping and the name
`a` the case of fetch-map pushes nil where the case of fetch, its generic
sibling, panics: the two do not have the same outcome. -/
theorem fetchMap_absent_differs :
    VM.exec Host.sample (.map [] []) ⟨[], [.string "a"], [0, 0], 0, 0, []⟩ .OpFetchMap
        = .ok ⟨[.nil], [.string "a"], [0, 0], 2, 0, []⟩ ∧
      VM.exec Host.sample (.map [] []) ⟨[], [.string "a"], [0, 0], 0, 0, []⟩ .OpFetch
        = .error "%v doesn't contains %v" := by
  exact ⟨rfl, rfl⟩

/-- The two environment fetches side by side, on an environment of type
`map[string]interface{}` and a string constant `k` named by the operand: when
`k` is present in the mapping both cases push the value bound to `k`; when
`k` is absent the case of fetch-map pushes nil and the case of fetch panics. -/
theorem fetchMap_vs_fetch (H : Host) (vm : VM) (kv : List (String × Value)) (k : String)
    (b0 b1 : Nat)
    (h0 : indexList vm.bytecode vm.ip = .ok b0)
    (h1 : indexList vm.bytecode (vm.ip + 1) = .ok b1)
    (hc : vm.constants.get? (operand b0 b1) = some (.string k)) :
    (∀ v, mapGet k kv = some v →
      vm.exec H (.map [] kv) .OpFetchMap = vm.exec H (.map [] kv) .OpFetch ∧
      vm.exec H (.map [] kv) .OpFetchMap
        = .ok { vm with ip := vm.ip + 2, stack := vm.stack ++ [v] }) ∧
    (mapGet k kv = none →
      vm.exec H (.map [] kv) .OpFetchMap
        = .ok { vm with ip := vm.ip + 2, stack := vm.stack ++ [.nil] } ∧
      ∃ e, vm.exec H (.map [] kv) .OpFetch = .error e) := by
  have hca : vm.constArg = .ok (.string k, { vm with ip := vm.ip + 2 }) := by
    simp only [VM.constArg, VM.arg_eq vm b0 b1 h0 h1, hc]
  constructor
  · intro v hv
    simp [VM.exec, hca, asStringMap, asString, fetch, mapIndex, hv, VM.push, bind, Except.bind,
      pure, Except.pure]
  · intro hn
    simp [VM.exec, hca, asStringMap, asString, fetch, mapIndex, hn, VM.push, bind, Except.bind,
      pure, Except.pure]

/-- An instance of `fetchMap_vs_fetch`: the name `a` is bound to 1 in the environment. -/
theorem fetchMap_vs_fetch_witness :
    VM.exec Host.sample (.map [] [("a", .int 1)]) ⟨[], [.string "a"], [0, 0], 0, 0, []⟩
        .OpFetchMap
      = VM.exec Host.sample (.map [] [("a", .int 1)]) ⟨[], [.string "a"], [0, 0], 0, 0, []⟩
        .OpFetch ∧
    VM.exec Host.sample (.map [] [("a", .int 1)]) ⟨[], [.string "a"], [0, 0], 0, 0, []⟩
        .OpFetchMap
      = .ok ⟨[] ++ [.int 1], [.string "a"], [0, 0], 0 + 2, 0, []⟩ :=
  (fetchMap_vs_fetch Host.sample ⟨[], [.string "a"], [0, 0], 0, 0, []⟩ [("a", .int 1)] "a" 0 0
    rfl rfl rfl).1 (.int 1) rfl

/-! ## Duplicate keys in map construction -/

/-- C18: on a stack `s ++ [k1, v1, ..., kn, vn, n]` with string keys, repeated or
not, the map opcode builds the mapping that binds every key to the value of
the EARLIEST pushed pair with that key (`mapGet k kvs` is the value of the
first pair of `kvs` with key `k`); in particular the stack
`s ++ [k, v1, k, v2, 2]` becomes `s ++ [m]` with `m` the mapping of `k` to `v1`. -/
theorem map_duplicate_key_keeps_first (T : Opcodes) (H : Host) (env : Value) (vm : VM)
    (s : List Value) (hop : indexList vm.bytecode vm.ip = .ok (T.code .OpMap)) :
    (∀ kvs : List (String × Value),
      vm.stack = s ++ flatPairs (kvs.map strPair) ++ [.int (kvs.length : Int)] →
      ∃ m, vm.cycle T H env = .ok { vm with
          pp := vm.ip, ip := vm.ip + 1, stack := s ++ [.map [] m] } ∧
        ∀ k, mapGet k m = mapGet k kvs) ∧
    (∀ (k : String) (v1 v2 : Value),
      vm.stack = s ++ [.string k, v1, .string k, v2, .int 2] →
      vm.cycle T H env = .ok { vm with
          pp := vm.ip, ip := vm.ip + 1, stack := s ++ [.map [] [(k, v1)]] }) := by
  have key : ∀ kvs : List (String × Value),
      vm.stack = s ++ flatPairs (kvs.map strPair) ++ [.int (kvs.length : Int)] →
      vm.cycle T H env = .ok { vm with
        pp := vm.ip, ip := vm.ip + 1,
        stack := s ++ [.map [] (kvs.foldr (fun p acc => mapSet acc p.1 p.2) [])] } := by
    intro kvs hs
    rw [VM.cycle_eq T H env vm _ hop]
    have hpn := VM.pop_concat { vm with pp := vm.ip, ip := vm.ip + 1 }
      (s ++ flatPairs (kvs.map strPair)) (.int (kvs.length : Int)) hs
    have hpp := VM.popPairs_spec kvs [] s
      { vm with pp := vm.ip, ip := vm.ip + 1, stack := s ++ flatPairs (kvs.map strPair) } rfl
    simp only [VM.exec, hpn, asInt, Int.toNat_ofNat, hpp, VM.push, bind, Except.bind, pure,
      Except.pure]
  constructor
  · intro kvs hs
    refine ⟨_, key kvs hs, fun k => ?_⟩
    rw [mapGet_foldr_mapSet]
    cases mapGet k kvs <;> simp [mapGet]
  · intro k v1 v2 hs
    have h := key [(k, v1), (k, v2)] (by simpa [flatPairs, strPair] using hs)
    simpa [mapSet] using h

/-- Witness of `map_duplicate_key_keeps_first`: the key `a` pushed with 1, then with 2. -/
theorem map_duplicate_key_keeps_first_witness :
    VM.cycle Opcodes.positional Host.sample .nil
        ⟨[.nil, .string "a", .int 1, .string "a", .int 2, .int 2], [],
          [Opcodes.positional.code .OpMap], 0, 0, []⟩
      = .ok ⟨[.nil] ++ [.map [] [("a", .int 1)]], [], [Opcodes.positional.code .OpMap],
          0 + 1, 0, []⟩ :=
  (map_duplicate_key_keeps_first Opcodes.positional Host.sample .nil
    ⟨[.nil, .string "a", .int 1, .string "a", .int 2, .int 2], [],
      [Opcodes.positional.code .OpMap], 0, 0, []⟩ [.nil] rfl).2 "a" (.int 1) (.int 2) rfl

/-! ## The cast opcode -/

/-- C19: a cycle on the cast opcode with operand bytes `b0 b1` and selector
`t = operand b0 b1` (1) for `t` other than 0 and 1 changes neither the stack
nor the scopes and does not panic: only `ip` advances by 3 (and `pp` records
the opcode offset); (2) for `t = 0` replaces the top value `a` by `toInt64 a`
as an `int64`; (3) for `t = 1` replaces it by `toFloat64 a` as a `float64`
(in both cases the panic of the coercion, if any, is the outcome). -/
theorem cast_selector (T : Opcodes) (H : Host) (env : Value) (vm : VM) (b0 b1 : Nat)
    (hop : indexList vm.bytecode vm.ip = .ok (T.code .OpCast))
    (h0 : indexList vm.bytecode (vm.ip + 1) = .ok b0)
    (h1 : indexList vm.bytecode (vm.ip + 2) = .ok b1) :
    (operand b0 b1 ≠ 0 → operand b0 b1 ≠ 1 →
      vm.cycle T H env = .ok { vm with pp := vm.ip, ip := vm.ip + 3 }) ∧
    (operand b0 b1 = 0 → ∀ s a, vm.stack = s ++ [a] →
      vm.cycle T H env = (toInt64 a).map (fun r =>
        { vm with pp := vm.ip, ip := vm.ip + 3, stack := s ++ [.int64 r] })) ∧
    (operand b0 b1 = 1 → ∀ s a, vm.stack = s ++ [a] →
      vm.cycle T H env = (toFloat64 a).map (fun r =>
        { vm with pp := vm.ip, ip := vm.ip + 3, stack := s ++ [.float64 r] })) := by
  have h2 : indexList vm.bytecode (vm.ip + 1 + 1) = .ok b1 := by
    rw [show vm.ip + 1 + 1 = vm.ip + 2 by ring]
    exact h1
  have hip : vm.ip + 1 + 2 = vm.ip + 3 := by ring
  have harg : VM.arg { vm with pp := vm.ip, ip := vm.ip + 1 }
      = .ok (operand b0 b1, { vm with pp := vm.ip, ip := vm.ip + 3 }) := by
    rw [VM.arg_eq _ b0 b1 h0 h2]
    simp only [hip]
  rw [VM.cycle_eq T H env vm _ hop]
  refine ⟨fun hn0 hn1 => ?_, fun ht s a hs => ?_, fun ht s a hs => ?_⟩
  · simp only [VM.exec, harg, bind, Except.bind, pure, Except.pure, if_neg hn0, if_neg hn1]
  · have hp : VM.pop { vm with pp := vm.ip, ip := vm.ip + 3 }
        = .ok (a, { vm with pp := vm.ip, ip := vm.ip + 3, stack := s }) :=
      VM.pop_concat _ s a hs
    simp only [VM.exec, harg, bind, Except.bind, pure, Except.pure, ht, if_true, hp, VM.push]
    cases toInt64 a <;> rfl
  · have hp : VM.pop { vm with pp := vm.ip, ip := vm.ip + 3 }
        = .ok (a, { vm with pp := vm.ip, ip := vm.ip + 3, stack := s }) :=
      VM.pop_concat _ s a hs
    have h10 : ¬ ((1 : Nat) = 0) := by decide
    simp only [VM.exec, harg, bind, Except.bind, pure, Except.pure, ht, if_neg h10, if_true, hp,
      VM.push]
    cases toFloat64 a <;> rfl

/-- Witness of `cast_selector`: selector 2 on a frame with one value, and
selector 0 on a `uint8`. -/
theorem cast_selector_witness :
    VM.cycle Opcodes.positional Host.sample .nil
        ⟨[.string "x"], [], [Opcodes.positional.code .OpCast, 2, 0], 0, 0, []⟩
      = .ok ⟨[.string "x"], [], [Opcodes.positional.code .OpCast, 2, 0], 0 + 3, 0, []⟩ ∧
    VM.cycle Opcodes.positional Host.sample .nil
        ⟨[.uint8 9], [], [Opcodes.positional.code .OpCast, 0, 0], 0, 0, []⟩
      = (toInt64 (.uint8 9)).map (fun r =>
          ⟨[] ++ [.int64 r], [], [Opcodes.positional.code .OpCast, 0, 0], 0 + 3, 0, []⟩) :=
  ⟨(cast_selector Opcodes.positional Host.sample .nil
      ⟨[.string "x"], [], [Opcodes.positional.code .OpCast, 2, 0], 0, 0, []⟩ 2 0 rfl rfl rfl).1
      (by decide) (by decide),
   (cast_selector Opcodes.positional Host.sample .nil
      ⟨[.uint8 9], [], [Opcodes.positional.code .OpCast, 0, 0], 0, 0, []⟩ 0 0 rfl rfl rfl).2.1
      (by decide) [] (.uint8 9) rfl⟩

/-! ## `negate` on integers -/

/-- C20: for every integer type `t` of width `w` and every `x` that `t` holds,
`negate` returns a value `y` of the same type `t`, held by `t`, congruent to
`-x` modulo `2 ^ w`; for an unsigned non-zero `x` it is `2 ^ w - x`, for the
minimum signed value it is that value itself; and negating twice gives `x` back. -/
theorem negate_integer (t : IntType) (x : Int) (hx : t.holds x) :
    ∃ y, negate (t.value x) = .ok (t.value y) ∧ t.holds y ∧
      (y + x) % 2 ^ t.bits = 0 ∧
      (t.signed = false → x ≠ 0 → y = 2 ^ t.bits - x) ∧
      (t.signed = true → x = -(2 ^ (t.bits - 1)) → y = x) ∧
      negate (t.value y) = .ok (t.value x) := by
  cases t <;>
    simp only [IntType.holds, IntType.signed, IntType.bits, intBits, if_true,
      Bool.false_eq_true, if_false] at hx <;>
    simp only [IntType.value, negate, IntType.holds, IntType.signed, IntType.bits, intBits,
      if_true, Bool.false_eq_true, if_false, Except.ok.injEq, Value.int.injEq, Value.int8.injEq,
      Value.int16.injEq, Value.int32.injEq, Value.int64.injEq, Value.uint.injEq,
      Value.uint8.injEq, Value.uint16.injEq, Value.uint32.injEq, Value.uint64.injEq,
      exists_eq_left', wrapSigned, wrapUnsigned] <;>
    norm_num at hx ⊢ <;>
    omega

/-- Witness of `negate_integer`: the `uint8` value 1, negated to 255. -/
theorem negate_integer_witness :
    ∃ y, negate (IntType.uint8.value 1) = .ok (IntType.uint8.value y) ∧ IntType.uint8.holds y ∧
      (y + 1) % 2 ^ IntType.uint8.bits = 0 ∧
      (IntType.uint8.signed = false → (1 : Int) ≠ 0 → y = 2 ^ IntType.uint8.bits - 1) ∧
      (IntType.uint8.signed = true → (1 : Int) = -(2 ^ (IntType.uint8.bits - 1)) → y = 1) ∧
      negate (IntType.uint8.value y) = .ok (IntType.uint8.value 1) :=
  negate_integer .uint8 1 (by simp [IntType.holds, IntType.signed, IntType.bits])

/-! ## Cycles of the scope opcodes -/

/-- The byte at offset `j` of a code segment placed after `pre`. -/
theorem indexList_mid (pre mid post : List Nat) (j b : Nat) (h : mid.get? j = some b) :
    indexList (pre ++ mid ++ post) ((pre.length : Int) + (j : Int)) = .ok b := by
  have hnn : ¬ ((pre.length : Int) + (j : Int) < 0) := by omega
  have hnat : ((pre.length : Int) + (j : Int)).toNat = pre.length + j := by omega
  have hj : j < mid.length := by
    rw [List.get?_eq_getElem?] at h
    exact (List.getElem?_eq_some_iff.mp h).1
  have hget : (pre ++ mid ++ post).get? (pre.length + j) = some b := by
    rw [List.append_assoc, List.get?_eq_getElem?, List.getElem?_append_right (by omega)]
    simp only [Nat.add_sub_cancel_left]
    rw [List.getElem?_append_left hj, ← List.get?_eq_getElem?]
    exact h
  simp only [indexList, if_neg hnn, hnat, hget]

theorem VM.cycle_begin (T : Opcodes) (H : Host) (env : Value) (w : VM)
    (hop : indexList w.bytecode w.ip = .ok (T.code .OpBegin)) :
    w.cycle T H env = .ok { w with pp := w.ip, ip := w.ip + 1, scopes := w.scopes ++ [[]] } := by
  rw [VM.cycle_eq T H env w _ hop]
  simp only [VM.exec, pure, Except.pure]

theorem VM.cycle_end (T : Opcodes) (H : Host) (env : Value) (w : VM) (ss : List Vm.Scope)
    (sc : Vm.Scope) (hop : indexList w.bytecode w.ip = .ok (T.code .OpEnd))
    (hsc : w.scopes = ss ++ [sc]) :
    w.cycle T H env = .ok { w with pp := w.ip, ip := w.ip + 1, scopes := ss } := by
  rw [VM.cycle_eq T H env w _ hop]
  simp [VM.exec, hsc, pure, Except.pure]

theorem VM.constArg_eq (w : VM) (b0 b1 : Nat) (c : Value)
    (h0 : indexList w.bytecode w.ip = .ok b0)
    (h1 : indexList w.bytecode (w.ip + 1) = .ok b1)
    (hc : w.constants.get? (operand b0 b1) = some c) :
    w.constArg = .ok (c, { w with ip := w.ip + 2 }) := by
  simp only [VM.constArg, VM.arg_eq w b0 b1 h0 h1, hc]

theorem VM.cycle_push (T : Opcodes) (H : Host) (env : Value) (w : VM) (b0 b1 : Nat) (c : Value)
    (hop : indexList w.bytecode w.ip = .ok (T.code .OpPush))
    (h0 : indexList w.bytecode (w.ip + 1) = .ok b0)
    (h1 : indexList w.bytecode (w.ip + 1 + 1) = .ok b1)
    (hc : w.constants.get? (operand b0 b1) = some c) :
    w.cycle T H env
      = .ok { w with pp := w.ip, ip := w.ip + 1 + 2, stack := w.stack ++ [c] } := by
  rw [VM.cycle_eq T H env w _ hop]
  have hca : VM.constArg { w with pp := w.ip, ip := w.ip + 1 }
      = .ok (c, { w with pp := w.ip, ip := w.ip + 1 + 2 }) :=
    VM.constArg_eq { w with pp := w.ip, ip := w.ip + 1 } b0 b1 c h0 h1 hc
  simp only [VM.exec, hca, VM.push, bind, Except.bind, pure, Except.pure]

theorem VM.cycle_store (T : Opcodes) (H : Host) (env : Value) (w : VM) (b0 b1 : Nat)
    (x : String) (s : List Value) (v : Value) (ss : List Vm.Scope) (sc : Vm.Scope)
    (hop : indexList w.bytecode w.ip = .ok (T.code .OpStore))
    (h0 : indexList w.bytecode (w.ip + 1) = .ok b0)
    (h1 : indexList w.bytecode (w.ip + 1 + 1) = .ok b1)
    (hc : w.constants.get? (operand b0 b1) = some (.string x))
    (hs : w.stack = s ++ [v]) (hsc : w.scopes = ss ++ [sc]) :
    w.cycle T H env = .ok { w with
      pp := w.ip, ip := w.ip + 1 + 2, stack := s, scopes := ss ++ [mapSet sc x v] } := by
  rw [VM.cycle_eq T H env w _ hop]
  have hca : VM.constArg { w with pp := w.ip, ip := w.ip + 1 }
      = .ok (.string x, { w with pp := w.ip, ip := w.ip + 1 + 2 }) :=
    VM.constArg_eq { w with pp := w.ip, ip := w.ip + 1 } b0 b1 _ h0 h1 hc
  have hp : VM.pop { w with pp := w.ip, ip := w.ip + 1 + 2 }
      = .ok (v, { w with pp := w.ip, ip := w.ip + 1 + 2, stack := s }) :=
    VM.pop_concat _ s v hs
  simp only [VM.exec, VM.Scope, hca, hp, asString, bind, Except.bind, pure, Except.pure]
  simp [hsc]

theorem VM.cycle_load (T : Opcodes) (H : Host) (env : Value) (w : VM) (b0 b1 : Nat)
    (x : String)
    (hop : indexList w.bytecode w.ip = .ok (T.code .OpLoad))
    (h0 : indexList w.bytecode (w.ip + 1) = .ok b0)
    (h1 : indexList w.bytecode (w.ip + 1 + 1) = .ok b1)
    (hc : w.constants.get? (operand b0 b1) = some (.string x)) :
    w.cycle T H env = .ok { w with
      pp := w.ip, ip := w.ip + 1 + 2,
      stack := w.stack ++ [match w.Scope with
        | some sc => (mapGet x sc).getD .nil
        | none => .nil] } := by
  rw [VM.cycle_eq T H env w _ hop]
  have hca : VM.constArg { w with pp := w.ip, ip := w.ip + 1 }
      = .ok (.string x, { w with pp := w.ip, ip := w.ip + 1 + 2 }) :=
    VM.constArg_eq { w with pp := w.ip, ip := w.ip + 1 } b0 b1 _ h0 h1 hc
  simp only [VM.exec, VM.Scope, hca, asString, VM.push, bind, Except.bind, pure, Except.pure]
  cases w.scopes.getLast? <;> rfl

theorem VM.after_succ (T : Opcodes) (H : Host) (env : Value) (n : Nat) (vm w : VM)
    (hlt : vm.ip < (vm.bytecode.length : Int)) (hc : vm.cycle T H env = .ok w) :
    VM.after T H env (n + 1) vm = VM.after T H env n w := by
  simp only [VM.after, if_pos hlt, hc]

/-! ## Variable load and scopes -/

/-- C11: (1) after the five instructions begin; push `v`; store `x`; end; load `x`
the frame is the initial one with, pushed on its stack, the binding of `x` in
the scope that was innermost before the begin (which is the innermost one
after the end), or nil when that scope does not bind `x` or when there is no
scope: the result is the same whatever `v` was stored in the inner scope.
(2) After begin; load `x` the value pushed is nil, whatever the outer scopes bind. -/
theorem load_reads_innermost_scope (T : Opcodes) (H : Host) (env : Value) (vm : VM)
    (x : String) (pre post : List Nat) (k0 k1 : Nat)
    (hip : vm.ip = (pre.length : Int))
    (hx : vm.constants.get? (operand k0 k1) = some (.string x)) :
    (∀ (v : Value) (a0 a1 : Nat),
      vm.bytecode = pre ++ [T.code .OpBegin, T.code .OpPush, a0, a1, T.code .OpStore, k0, k1,
        T.code .OpEnd, T.code .OpLoad, k0, k1] ++ post →
      vm.constants.get? (operand a0 a1) = some v →
      VM.after T H env 5 vm = some { vm with
        pp := vm.ip + 8, ip := vm.ip + 11,
        stack := vm.stack ++ [match vm.Scope with
          | some sc => (mapGet x sc).getD .nil
          | none => .nil] }) ∧
    (vm.bytecode = pre ++ [T.code .OpBegin, T.code .OpLoad, k0, k1] ++ post →
      VM.after T H env 2 vm = some { vm with
        pp := vm.ip + 1, ip := vm.ip + 4,
        stack := vm.stack ++ [.nil], scopes := vm.scopes ++ [[]] }) := by
  constructor
  · intro v a0 a1 hbc hv
    have hb : ∀ (i : Int) (j b : Nat),
        [T.code .OpBegin, T.code .OpPush, a0, a1, T.code .OpStore, k0, k1,
          T.code .OpEnd, T.code .OpLoad, k0, k1].get? j = some b →
        i = vm.ip + (j : Int) → indexList vm.bytecode i = .ok b := by
      intro i j b h hi
      rw [hi, hbc, hip]
      exact indexList_mid pre _ post j b h
    have hlen : (vm.bytecode.length : Int) = vm.ip + 11 + (post.length : Int) := by
      rw [hbc, hip]
      simp only [List.length_append, List.length_cons, List.length_nil]
      push_cast
      ring
    have c1 := VM.cycle_begin T H env vm (hb _ 0 _ rfl (by omega))
    have c2 := VM.cycle_push T H env
      { vm with pp := vm.ip, ip := vm.ip + 1, scopes := vm.scopes ++ [[]] } a0 a1 v
      (hb _ 1 _ rfl (by simp)) (hb _ 2 _ rfl (by simp; omega)) (hb _ 3 _ rfl (by simp; omega)) hv
    have c3 := VM.cycle_store T H env
      { vm with pp := vm.ip + 1, ip := vm.ip + 1 + 1 + 2, stack := vm.stack ++ [v],
                scopes := vm.scopes ++ [[]] } k0 k1 x vm.stack v vm.scopes []
      (hb _ 4 _ rfl (by simp; omega)) (hb _ 5 _ rfl (by simp; omega))
      (hb _ 6 _ rfl (by simp; omega)) hx rfl rfl
    have c4 := VM.cycle_end T H env
      { vm with pp := vm.ip + 1 + 1 + 2, ip := vm.ip + 1 + 1 + 2 + 1 + 2,
                scopes := vm.scopes ++ [mapSet [] x v] } vm.scopes (mapSet [] x v)
      (hb _ 7 _ rfl (by simp; omega)) rfl
    have c5 := VM.cycle_load T H env
      { vm with pp := vm.ip + 1 + 1 + 2 + 1 + 2, ip := vm.ip + 1 + 1 + 2 + 1 + 2 + 1 } k0 k1 x
      (hb _ 8 _ rfl (by simp; omega)) (hb _ 9 _ rfl (by simp; omega))
      (hb _ 10 _ rfl (by simp; omega)) hx
    rw [VM.after_succ T H env 4 vm _ (by omega) c1,
      VM.after_succ T H env 3 _ _ (by simp only []; omega) c2,
      VM.after_succ T H env 2 _ _ (by simp only []; omega) c3,
      VM.after_succ T H env 1 _ _ (by simp only []; omega) c4,
      VM.after_succ T H env 0 _ _ (by simp only []; omega) c5]
    simp only [VM.after, VM.Scope, Option.some.injEq, VM.mk.injEq, true_and, and_true]
    constructor <;> omega
  · intro hbc
    have hb : ∀ (i : Int) (j b : Nat),
        [T.code .OpBegin, T.code .OpLoad, k0, k1].get? j = some b →
        i = vm.ip + (j : Int) → indexList vm.bytecode i = .ok b := by
      intro i j b h hi
      rw [hi, hbc, hip]
      exact indexList_mid pre _ post j b h
    have hlen : (vm.bytecode.length : Int) = vm.ip + 4 + (post.length : Int) := by
      rw [hbc, hip]
      simp only [List.length_append, List.length_cons, List.length_nil]
      push_cast
      ring
    have c1 := VM.cycle_begin T H env vm (hb _ 0 _ rfl (by omega))
    have c2 := VM.cycle_load T H env
      { vm with pp := vm.ip, ip := vm.ip + 1, scopes := vm.scopes ++ [[]] } k0 k1 x
      (hb _ 1 _ rfl (by simp)) (hb _ 2 _ rfl (by simp; omega)) (hb _ 3 _ rfl (by simp; omega)) hx
    rw [VM.after_succ T H env 1 vm _ (by omega) c1,
      VM.after_succ T H env 0 _ _ (by simp only []; omega) c2]
    simp [VM.after, VM.Scope, mapGet]
    omega

/-- Witness of `load_reads_innermost_scope`: the outer scope binds `x` to 5; the
value 7 stored in the inner scope is not what the load after the end pushes,
it pushes 5; and the load after a fresh begin pushes nil. -/
theorem load_reads_innermost_scope_witness :
    VM.after Opcodes.positional Host.sample .nil 5
        ⟨[], [.int 7, .string "x"],
          [Opcodes.positional.code .OpBegin, Opcodes.positional.code .OpPush, 0, 0,
            Opcodes.positional.code .OpStore, 1, 0, Opcodes.positional.code .OpEnd,
            Opcodes.positional.code .OpLoad, 1, 0], 0, 0, [[("x", .int 5)]]⟩
      = some ⟨[.int 5], [.int 7, .string "x"],
          [Opcodes.positional.code .OpBegin, Opcodes.positional.code .OpPush, 0, 0,
            Opcodes.positional.code .OpStore, 1, 0, Opcodes.positional.code .OpEnd,
            Opcodes.positional.code .OpLoad, 1, 0], 11, 8, [[("x", .int 5)]]⟩ ∧
    VM.after Opcodes.positional Host.sample .nil 2
        ⟨[], [.int 7, .string "x"],
          [Opcodes.positional.code .OpBegin, Opcodes.positional.code .OpLoad, 1, 0],
          0, 0, [[("x", .int 5)]]⟩
      = some ⟨[.nil], [.int 7, .string "x"],
          [Opcodes.positional.code .OpBegin, Opcodes.positional.code .OpLoad, 1, 0],
          4, 1, [[("x", .int 5)], []]⟩ :=
  ⟨(load_reads_innermost_scope Opcodes.positional Host.sample .nil
      ⟨[], [.int 7, .string "x"],
        [Opcodes.positional.code .OpBegin, Opcodes.positional.code .OpPush, 0, 0,
          Opcodes.positional.code .OpStore, 1, 0, Opcodes.positional.code .OpEnd,
          Opcodes.positional.code .OpLoad, 1, 0], 0, 0, [[("x", .int 5)]]⟩
      "x" [] [] 1 0 rfl rfl).1 (.int 7) 0 0 rfl rfl,
   (load_reads_innermost_scope Opcodes.positional Host.sample .nil
      ⟨[], [.int 7, .string "x"],
        [Opcodes.positional.code .OpBegin, Opcodes.positional.code .OpLoad, 1, 0],
        0, 0, [[("x", .int 5)]]⟩
      "x" [] [] 1 0 rfl rfl).2 rfl⟩

/-! ## The top-level `Run` and the position of a panic -/

/-- Fuel spent on `n` successful turns is spent: the loop continues from the frame reached. -/
theorem VM.loop_after (T : Opcodes) (H : Host) (env : Value) (n : Nat) :
    ∀ (k : Nat) (vm0 vm : VM), VM.after T H env n vm0 = some vm →
      VM.loop T H env (n + k) vm0 = VM.loop T H env k vm := by
  induction n with
  | zero =>
    intro k vm0 vm h
    simp only [VM.after, Option.some.injEq] at h
    subst h
    simp
  | succ n ih =>
    intro k vm0 vm h
    rw [show n + 1 + k = (n + k) + 1 by omega]
    simp only [VM.after] at h
    split at h
    · rename_i hlt
      split at h
      · rename_i vm1 hc
        simp only [VM.loop, if_pos hlt, hc]
        exact ih k vm1 vm h
      · exact absurd h (by simp)
    · exact absurd h (by simp)

/-- C12 as stated fails on two programs whose bytecode is the single pop opcode
(the loop panics at offset 0: pop on an empty stack). With an empty location
table the deferred recovery panics on `Locations[0]`; with a location for
offset 0 and a nil source it panics in the rendering of the error. In both
cases the panic of the recovery reaches the caller of `Run`. -/
theorem Run_panics_in_recovery :
    Run Opcodes.positional Host.sample 1
        (some ⟨some "s", [], [], [Opcodes.positional.code .OpPop]⟩) .nil
      = some (.panicked "runtime error: index out of range") ∧
    Run Opcodes.positional Host.sample 1
        (some ⟨none, [⟨1, 1⟩], [], [Opcodes.positional.code .OpPop]⟩) .nil
      = some (.panicked "runtime error: invalid memory address or nil pointer dereference") := by
  exact ⟨rfl, rfl⟩

/-- C12 (amended): let the loop of `Run` reach, after `n` turns, a frame `vm`
whose `ip` is the offset of the opcode about to be executed. (1) If the cycle
on that opcode panics with payload `r` (a panic, not the fatal error of
exhausted memory), the location table has an entry `loc` at that offset and
the rendering of the error from `loc`, `r` and the source does not itself
panic but gives `message`, then `Run` does not panic: it returns a nil
result and the error `message`. (2) If the loop test fails
at `vm` (the loop ends without a panic), `Run` returns the top of the stack
of `vm`, or nil when it is empty, with a nil error. Any fuel above `n` suffices. -/
theorem Run_positions_panic (T : Opcodes) (H : Host) (env : Value) (program : Program)
    (n : Nat) (vm : VM) (hreach : VM.after T H env n (VM.start program) = some vm)
    (fuel : Nat) :
    (∀ r loc message, vm.ip < (vm.bytecode.length : Int) → vm.cycle T H env = .error r →
      r ≠ outOfMemory → indexList program.Locations vm.ip = .ok loc →
      H.format loc r program.Source = .ok message →
      Run T H (n + (fuel + 1)) (some program) env
        = some (.returned .nil (some message))) ∧
    (¬ vm.ip < (vm.bytecode.length : Int) →
      Run T H (n + (fuel + 1)) (some program) env
        = some (.returned (match vm.stack.getLast? with
            | some v => v
            | none => .nil) none)) := by
  have hloop := VM.loop_after T H env n (fuel + 1) (VM.start program) vm hreach
  simp only [VM.start] at hloop
  constructor
  · intro r loc message hlt hc hne hloc hfmt
    simp only [Run, VM.Run]
    rw [hloop]
    simp only [VM.loop, if_pos hlt, hc, if_neg hne, hloc, hfmt]
  · intro hge
    simp only [Run, VM.Run]
    rw [hloop]
    simp only [VM.loop, if_neg hge, VM.pop]
    cases vm.stack.getLast? <;> rfl

/-- Witness of `Run_positions_panic`: a pop on the empty stack with a location
for offset 0 and a source, and the one-instruction program of the true opcode. -/
theorem Run_positions_panic_witness :
    Run Opcodes.positional Host.sample (0 + (0 + 1))
        (some ⟨some "s", [⟨1, 1⟩], [], [Opcodes.positional.code .OpPop]⟩) .nil
      = some (.returned .nil (some "runtime error: index out of range [-1]")) ∧
    Run Opcodes.positional Host.sample (1 + (0 + 1))
        (some ⟨some "s", [⟨1, 1⟩], [], [Opcodes.positional.code .OpTrue]⟩) .nil
      = some (.returned (.bool true) none) :=
  ⟨(Run_positions_panic Opcodes.positional Host.sample .nil
      ⟨some "s", [⟨1, 1⟩], [], [Opcodes.positional.code .OpPop]⟩ 0
      ⟨[], [], [Opcodes.positional.code .OpPop], 0, 0, []⟩ rfl 0).1
      "runtime error: index out of range [-1]" ⟨1, 1⟩
      "runtime error: index out of range [-1]" (by decide) rfl (by decide) rfl rfl,
   (Run_positions_panic Opcodes.positional Host.sample .nil
      ⟨some "s", [⟨1, 1⟩], [], [Opcodes.positional.code .OpTrue]⟩ 1
      ⟨[.bool true], [], [Opcodes.positional.code .OpTrue], 1, 0, []⟩ rfl 0).2 (by decide)⟩

theorem VM.keeps_bindP {α : Type} (vm : VM) (x : Except Fault (α × VM))
    (f : α × VM → Except Fault VM) (hx : vm.KeepsP x) (hf : ∀ p : α × VM, p.2.Keeps (f p)) :
    vm.Keeps (x >>= f) := by
  intro w h
  cases x with
  | error e => exact absurd h (by simp [bind, Except.bind])
  | ok p =>
    have h1 := hx p rfl
    have h2 := hf p w h
    exact ⟨h2.1.trans h1.1, le_trans h1.2 h2.2⟩

theorem VM.keeps_bindV {β : Type} (vm : VM) (x : Except Fault β)
    (f : β → Except Fault VM) (hf : ∀ b, vm.Keeps (f b)) : vm.Keeps (x >>= f) := by
  intro w h
  cases x with
  | error e => exact absurd h (by simp [bind, Except.bind])
  | ok b => exact hf b w h

theorem VM.keeps_pure (vm w : VM) (hb : w.bytecode = vm.bytecode) (hi : vm.ip ≤ w.ip) :
    vm.Keeps (pure w) := by
  intro w1 h
  simp only [pure, Except.pure, Except.ok.injEq] at h
  subst h
  exact ⟨hb, hi⟩

theorem VM.keeps_throw (vm : VM) (e : Fault) : vm.Keeps (throw e) := by
  intro w h
  exact absurd h (by simp [throw, throwThe, MonadExceptOf.throw])

theorem VM.keepsP_pop (vm : VM) : vm.KeepsP vm.pop := by
  intro p h
  simp only [VM.pop] at h
  split at h
  · simp only [Except.ok.injEq] at h
    subst h
    exact ⟨rfl, le_refl _⟩
  · exact absurd h (by simp)

theorem VM.keepsP_arg (vm : VM) : vm.KeepsP vm.arg := by
  intro p h
  simp only [VM.arg] at h
  split at h
  · exact absurd h (by simp)
  · split at h
    · exact absurd h (by simp)
    · simp only [Except.ok.injEq] at h
      subst h
      exact ⟨rfl, by simp⟩

theorem VM.keepsP_constArg (vm : VM) : vm.KeepsP vm.constArg := by
  intro p h
  simp only [VM.constArg] at h
  split at h
  · exact absurd h (by simp)
  · rename_i i vm1 harg
    have h1 := VM.keepsP_arg vm _ harg
    split at h
    · simp only [Except.ok.injEq] at h
      subst h
      exact h1
    · exact absurd h (by simp)

theorem VM.keepsP_popInto (n : Nat) :
    ∀ (array : List Value) (vm : VM), vm.KeepsP (VM.popInto n array vm) := by
  induction n with
  | zero =>
    intro array vm p h
    simp only [VM.popInto, Except.ok.injEq] at h
    subst h
    exact ⟨rfl, le_refl _⟩
  | succ n ih =>
    intro array vm p h
    simp only [VM.popInto] at h
    split at h
    · exact absurd h (by simp)
    · rename_i value vm1 hp
      have h1 := VM.keepsP_pop vm _ hp
      have h2 := ih _ vm1 p h
      exact ⟨h2.1.trans h1.1, le_trans h1.2 h2.2⟩

theorem VM.keepsP_popArray (vm : VM) (size : Int) : vm.KeepsP (vm.popArray size) := by
  intro p h
  simp only [VM.popArray] at h
  split at h
  · exact absurd h (by simp)
  · exact VM.keepsP_popInto _ _ vm p h

theorem VM.keepsP_popPairs (n : Nat) :
    ∀ (m : List (String × Value)) (vm : VM), vm.KeepsP (VM.popPairs n m vm) := by
  induction n with
  | zero =>
    intro m vm p h
    simp only [VM.popPairs, Except.ok.injEq] at h
    subst h
    exact ⟨rfl, le_refl _⟩
  | succ n ih =>
    intro m vm p h
    simp only [VM.popPairs] at h
    split at h
    · exact absurd h (by simp)
    · rename_i value vm1 hp
      have h1 := VM.keepsP_pop vm _ hp
      split at h
      · exact absurd h (by simp)
      · rename_i key vm2 hp2
        have h2 := VM.keepsP_pop vm1 _ hp2
        split at h
        · have h3 := ih _ vm2 p h
          exact ⟨h3.1.trans (h2.1.trans h1.1), le_trans h1.2 (le_trans h2.2 h3.2)⟩
        · exact absurd h (by simp)

theorem VM.keeps_binary (vm : VM) (f : Value → Value → Except Fault Value) :
    vm.Keeps (vm.binary f) := by
  intro w h
  simp only [VM.binary] at h
  split at h
  · exact absurd h (by simp)
  · rename_i b vm1 hp
    have h1 := VM.keepsP_pop vm _ hp
    split at h
    · exact absurd h (by simp)
    · rename_i a vm2 hp2
      have h2 := VM.keepsP_pop vm1 _ hp2
      split at h
      · exact absurd h (by simp)
      · simp only [Except.ok.injEq] at h
        subst h
        exact ⟨h2.1.trans h1.1, le_trans h1.2 h2.2⟩

/-- Every case of the switch other than jump-backward keeps the bytecode and
does not move the instruction pointer back. -/
theorem VM.keeps_exec (H : Host) (env : Value) (vm : VM) (o : Op) (ho : o ≠ .OpJumpBackward) :
    vm.Keeps (vm.exec H env o) := by
  cases o <;> simp only [VM.exec] <;> first | exact absurd rfl ho | skip
  all_goals
    repeat (first
      | exact VM.keeps_binary _ _
      | (refine VM.keeps_bindP _ _ _ (VM.keepsP_pop _) ?_; rintro ⟨_, _⟩; dsimp only)
      | (refine VM.keeps_bindP _ _ _ (VM.keepsP_arg _) ?_; rintro ⟨_, _⟩; dsimp only)
      | (refine VM.keeps_bindP _ _ _ (VM.keepsP_constArg _) ?_; rintro ⟨_, _⟩; dsimp only)
      | (refine VM.keeps_bindP _ _ _ (VM.keepsP_popArray _ _) ?_; rintro ⟨_, _⟩; dsimp only)
      | (refine VM.keeps_bindP _ _ _ (VM.keepsP_popPairs _ _ _) ?_; rintro ⟨_, _⟩; dsimp only)
      | (refine VM.keeps_bindV _ _ _ ?_; intro _; dsimp only)
      | exact VM.keeps_throw _ _
      | (refine VM.keeps_pure _ _ ?_ ?_ <;> simp [VM.push] <;> omega)
      | split)

theorem Opcodes.decode_eq_some (T : Opcodes) (b : Nat) (o : Op) (h : T.decode b = some o) :
    T.code o = b := by
  have h1 := List.find?_some h
  simpa using h1

/-- What a cycle that does not panic went through. -/
theorem VM.cycle_ok_inv (T : Opcodes) (H : Host) (env : Value) (vm w : VM)
    (h : vm.cycle T H env = .ok w) :
    ∃ o, indexList vm.bytecode vm.ip = .ok (T.code o) ∧
      VM.exec H env { vm with pp := vm.ip, ip := vm.ip + 1 } o = .ok w := by
  simp only [VM.cycle] at h
  split at h
  · exact absurd h (by simp)
  · rename_i op hop
    split at h
    · rename_i o ho
      have hc := T.decode_eq_some op o ho
      exact ⟨o, by rw [hc]; exact hop, h⟩
    · exact absurd h (by simp)

/-- A cycle on an opcode other than jump-backward keeps the bytecode and
advances the instruction pointer by at least 1. -/
theorem VM.cycle_advances (T : Opcodes) (H : Host) (env : Value) (vm w : VM)
    (hnb : indexList vm.bytecode vm.ip ≠ .ok (T.code .OpJumpBackward))
    (h : vm.cycle T H env = .ok w) :
    w.bytecode = vm.bytecode ∧ vm.ip + 1 ≤ w.ip := by
  obtain ⟨o, hop, hex⟩ := VM.cycle_ok_inv T H env vm w h
  have ho : o ≠ .OpJumpBackward := by
    intro he
    subst he
    exact hnb hop
  exact VM.keeps_exec H env { vm with pp := vm.ip, ip := vm.ip + 1 } o ho w hex

/-- With no backward jump on the way, a frame at distance at most `d` from the
end of the code ends the loop or panics within `d` cycles. -/
theorem VM.bounded_cycles (T : Opcodes) (H : Host) (env : Value) (d : Nat) :
    ∀ vm : VM, (vm.bytecode.length : Int) - vm.ip ≤ (d : Int) →
      (∀ n w, VM.after T H env n vm = some w →
        indexList w.bytecode w.ip ≠ .ok (T.code .OpJumpBackward)) →
      ∃ n w, n ≤ d ∧ VM.after T H env n vm = some w ∧
        (¬ w.ip < (w.bytecode.length : Int) ∨ (n < d ∧ ∃ r, w.cycle T H env = .error r)) := by
  induction d with
  | zero =>
    intro vm hd _
    exact ⟨0, vm, le_refl _, rfl, Or.inl (by push_cast at hd; omega)⟩
  | succ d ih =>
    intro vm hd hnb
    by_cases hlt : vm.ip < (vm.bytecode.length : Int)
    · cases hc : vm.cycle T H env with
      | error r => exact ⟨0, vm, Nat.zero_le _, rfl, Or.inr ⟨Nat.succ_pos _, r, hc⟩⟩
      | ok vm1 =>
        have hadv := VM.cycle_advances T H env vm vm1 (hnb 0 vm rfl) hc
        have hd1 : (vm1.bytecode.length : Int) - vm1.ip ≤ (d : Int) := by
          rw [hadv.1]
          push_cast at hd
          omega
        have hnb1 : ∀ n w, VM.after T H env n vm1 = some w →
            indexList w.bytecode w.ip ≠ .ok (T.code .OpJumpBackward) := by
          intro n w hw
          exact hnb (n + 1) w (by rw [VM.after_succ T H env n vm vm1 hlt hc]; exact hw)
        obtain ⟨n, w, hn, hw, hend⟩ := ih vm1 hd1 hnb1
        refine ⟨n + 1, w, Nat.succ_le_succ hn, ?_, ?_⟩
        · rw [VM.after_succ T H env n vm vm1 hlt hc]
          exact hw
        · rcases hend with h1 | ⟨h1, h2⟩
          · exact Or.inl h1
          · exact Or.inr ⟨Nat.succ_lt_succ h1, h2⟩
    · exact ⟨0, vm, Nat.zero_le _, rfl, Or.inl hlt⟩

/-! ## Progress and termination without backward jumps -/

/-- C17: (1) every cycle that does not panic and whose opcode byte is not that of
jump-backward increases the instruction pointer by at least 1; (2) hence, from
a frame with a non-negative instruction pointer whose execution never reaches a
jump-backward opcode, the dispatch loop ends or panics after at most
`len(bytecode)` cycles: after some `n ≤ len(bytecode)` cycles that do not panic
either the loop test fails, or `n < len(bytecode)` and the next cycle
panics; with `len(bytecode) + 1` turns of fuel the loop returns that outcome. -/
theorem progress_without_backward_jump (T : Opcodes) (H : Host) (env : Value) :
    (∀ (vm w : VM) (b : Nat), indexList vm.bytecode vm.ip = .ok b →
      b ≠ T.code .OpJumpBackward → vm.cycle T H env = .ok w → vm.ip + 1 ≤ w.ip) ∧
    (∀ vm0 : VM, 0 ≤ vm0.ip →
      (∀ n vm, VM.after T H env n vm0 = some vm →
        indexList vm.bytecode vm.ip ≠ .ok (T.code .OpJumpBackward)) →
      ∃ n vm, n ≤ vm0.bytecode.length ∧ VM.after T H env n vm0 = some vm ∧
        ((¬ vm.ip < (vm.bytecode.length : Int) ∧
            VM.loop T H env (vm0.bytecode.length + 1) vm0 = some (.ok vm)) ∨
          (n < vm0.bytecode.length ∧ ∃ r, vm.cycle T H env = .error r ∧
            VM.loop T H env (vm0.bytecode.length + 1) vm0 = some (.error (vm.ip, r))))) := by
  constructor
  · intro vm w b hb hne h
    have hnb : indexList vm.bytecode vm.ip ≠ .ok (T.code .OpJumpBackward) := by
      rw [hb]
      intro he
      exact hne (Except.ok.inj he)
    exact (VM.cycle_advances T H env vm w hnb h).2
  · intro vm0 hip hnb
    obtain ⟨n, vm, hn, hreach, hend⟩ :=
      VM.bounded_cycles T H env vm0.bytecode.length vm0 (by omega) hnb
    refine ⟨n, vm, hn, hreach, ?_⟩
    have hloop := VM.loop_after T H env n (vm0.bytecode.length - n + 1) vm0 vm hreach
    rw [show n + (vm0.bytecode.length - n + 1) = vm0.bytecode.length + 1 by omega] at hloop
    rcases hend with h1 | ⟨h1, r, h2⟩
    · refine Or.inl ⟨h1, ?_⟩
      rw [hloop]
      simp only [VM.loop, if_neg h1]
    · by_cases hlt : vm.ip < (vm.bytecode.length : Int)
      · refine Or.inr ⟨h1, r, h2, ?_⟩
        rw [hloop]
        simp only [VM.loop, if_pos hlt, h2]
      · refine Or.inl ⟨hlt, ?_⟩
        rw [hloop]
        simp only [VM.loop, if_neg hlt]

/-- Witness of `progress_without_backward_jump` on the one-instruction code of
the true opcode: the cycle moves `ip` from 0 to 1, and the loop ends within
one cycle. -/
theorem progress_without_backward_jump_witness :
    (VM.oneTrue.ip + 1
        ≤ (⟨[.bool true], [], [Opcodes.positional.code .OpTrue], 1, 0, []⟩ : VM).ip) ∧
    (∃ n vm, n ≤ VM.oneTrue.bytecode.length ∧
      VM.after Opcodes.positional Host.sample .nil n VM.oneTrue = some vm ∧
      ((¬ vm.ip < (vm.bytecode.length : Int) ∧
          VM.loop Opcodes.positional Host.sample .nil (VM.oneTrue.bytecode.length + 1) VM.oneTrue
            = some (.ok vm)) ∨
        (n < VM.oneTrue.bytecode.length ∧
          ∃ r, vm.cycle Opcodes.positional Host.sample .nil = .error r ∧
            VM.loop Opcodes.positional Host.sample .nil (VM.oneTrue.bytecode.length + 1)
              VM.oneTrue = some (.error (vm.ip, r))))) :=
  ⟨(progress_without_backward_jump Opcodes.positional Host.sample .nil).1 VM.oneTrue
      ⟨[.bool true], [], [Opcodes.positional.code .OpTrue], 1, 0, []⟩
      (Opcodes.positional.code .OpTrue) rfl (by decide) rfl,
   (progress_without_backward_jump Opcodes.positional Host.sample .nil).2 VM.oneTrue
      (by decide) (by
        intro n vm h
        match n, h with
        | 0, h =>
          simp only [VM.after, Option.some.injEq] at h
          subst h
          intro he
          exact absurd (Except.ok.inj he) (by decide)
        | 1, h =>
          have h1 : VM.after Opcodes.positional Host.sample .nil 1 VM.oneTrue
              = some ⟨[.bool true], [], [Opcodes.positional.code .OpTrue], 1, 0, []⟩ := rfl
          rw [h1] at h
          simp only [Option.some.injEq] at h
          subst h
          intro he
          cases he
        | n + 2, h =>
          have h1 : VM.cycle Opcodes.positional Host.sample .nil VM.oneTrue
              = .ok ⟨[.bool true], [], [Opcodes.positional.code .OpTrue], 1, 0, []⟩ := rfl
          rw [VM.after_succ _ _ _ (n + 1) VM.oneTrue _ (by decide) h1] at h
          simp [VM.after] at h)⟩

end Vm
